import Mathlib

/-!
# Verification of the fgb-vt tile materialization pipeline

A shallow embedding, in Lean 4, of the core components of the fgb-vt
library (FlatGeobuf → Mapbox Vector Tile materialization): the protobuf
varint writer (`src/pbf/writer.ts`), the spatial index query and byte-range
merge (`src/fgb/index.ts`), the FGB feature/property decoder
(`src/fgb/feature.ts`, `src/fgb/flatbuffers.ts`), the MVT command encoder
(`src/mvt/geometry.ts`), the winding correction (`src/geometry/transform.ts`),
the Douglas-Peucker simplifier (`src/geometry/simplify.ts`), the packed
R-tree level computation (`src/fgb/header.ts`), and the single-source
orchestrator entry (`src/pipeline.ts`).

Conventions used throughout:
* JavaScript numbers holding integers are modelled as `Nat`/`Int`, with the
  ECMAScript 32-bit coercions (`ToInt32`, `ToUint32`, `<<`, `>>>`, `&`, `|`)
  made explicit where the source relies on them.
* IEEE-754 doubles that only flow through comparisons and exact arithmetic
  are modelled as `Rat`; doubles that are only carried (never computed on)
  are modelled by their 8-byte little-endian bit pattern.
* Byte buffers are `List Nat` (each entry < 256); `DataView` reads that can
  throw `RangeError` are modelled with `Except`.
* Fallible functions return `Except String`; `Option` models JS
  `null`/`undefined`.
-/

namespace FgbVt

/-! ## PBF varint writer (`src/pbf/writer.ts`)

`PbfWriter.writeVarint` loops `while (val > 0x7f) { buf[pos++] = (val & 0x7f) | 0x80;
val >>>= 7; }` and finally stores `val`.  In JavaScript `val & 0x7f` equals
`val mod 128` for integral `val ≥ 0`, and `val >>>= 7` is
`ToUint32(val) >> 7 = (val mod 2^32) / 128` — the 32-bit truncation the
shift performs is modelled explicitly.  For an unsigned (u64) argument the
`val < 0` branch (`writeBigVarint`, 10-byte two's complement) is dead code,
so the model covers the non-negative path. -/

/-- `PbfWriter.writeVarint` on a non-negative integral argument: each loop
iteration appends `(val & 0x7f) | 0x80 = val % 128 + 128` and replaces
`val` with `val >>> 7 = (val % 2^32) / 128`; the final byte is `val`. -/
def writeVarint (val : Nat) : List Nat :=
  if _h : val > 0x7f then
    (val % 128 + 128) :: writeVarint (val % 2 ^ 32 / 128)
  else
    [val]
  termination_by val
  decreasing_by
    rcases Nat.lt_or_ge val (2 ^ 32) with hlt | hge
    · calc val % 2 ^ 32 / 128 ≤ val / 128 :=
            Nat.div_le_div_right (Nat.le_of_eq (Nat.mod_eq_of_lt hlt))
        _ < val := Nat.div_lt_self (by omega) (by omega)
    · calc val % 2 ^ 32 / 128 ≤ val % 2 ^ 32 := Nat.div_le_self _ _
        _ < 2 ^ 32 := Nat.mod_lt _ (by omega)
        _ ≤ val := hge

/-- Standard base-128 little-endian varint decoding (the reading side of
the protobuf wire format, stated from the spec): low 7 bits of each byte,
least significant group first, stopping at the first byte below `0x80`. -/
def decodeVarint : List Nat → Nat
  | [] => 0
  | b :: rest => if b < 128 then b else (b - 128) + 128 * decodeVarint rest

/-- `varintSize` from `src/pbf/writer.ts` (non-negative branch; the
`val < 0` case returns 10 and is dead for unsigned inputs). -/
def varintSize (val : Nat) : Nat :=
  if val < 0x80 then 1
  else if val < 0x4000 then 2
  else if val < 0x200000 then 3
  else if val < 0x10000000 then 4
  else 5

/-- The `>>> 7` step of `writeVarint` strictly decreases the value. -/
theorem writeVarint_step_lt (val : Nat) (h : val > 0x7f) :
    val % 2 ^ 32 / 128 < val := by
  rcases Nat.lt_or_ge val (2 ^ 32) with hlt | hge
  · calc val % 2 ^ 32 / 128 ≤ val / 128 :=
        Nat.div_le_div_right (Nat.le_of_eq (Nat.mod_eq_of_lt hlt))
      _ < val := Nat.div_lt_self (by omega) (by omega)
  · calc val % 2 ^ 32 / 128 ≤ val % 2 ^ 32 := Nat.div_le_self _ _
      _ < 2 ^ 32 := Nat.mod_lt _ (by omega)
      _ ≤ val := hge

/-- Decoding what `writeVarint` wrote recovers the value modulo `2^32`. -/
theorem decodeVarint_writeVarint (val : Nat) :
    decodeVarint (writeVarint val) = val % 2 ^ 32 := by
  induction val using Nat.strong_induction_on with
  | _ val ih =>
    rw [writeVarint]
    by_cases h : val > 0x7f
    · rw [dif_pos h]
      have hrec := ih _ (writeVarint_step_lt val h)
      simp only [decodeVarint]
      rw [if_neg (by omega), hrec]
      have h32 : (2 : Nat) ^ 32 = 4294967296 := by norm_num
      rw [h32] at *
      omega
    · rw [dif_neg h]
      simp only [decodeVarint]
      rw [if_pos (by omega)]
      have h32 : (2 : Nat) ^ 32 = 4294967296 := by norm_num
      rw [h32]
      omega

/-- C1 (amended): decoding the bytes `PbfWriter.writeVarint` wrote for an
unsigned integer `v` with standard base-128 little-endian varint decoding
yields `v mod 2^32`, not `v`: the writer's `>>>`-based loop truncates to 32
bits, so the round-trip is exact precisely for `v < 2^32`. -/
theorem varint_roundtrip_mod_2_32 :
    ∀ v : Nat, decodeVarint (writeVarint v) = v % 2 ^ 32 := by
  exact decodeVarint_writeVarint

/-- C1 (counterexample to the claim as stated): the 64-bit value `2^32`
does not round-trip through `writeVarint`; it decodes to `0`. -/
theorem varint_roundtrip_fails_at_2_32 :
    decodeVarint (writeVarint (2 ^ 32)) ≠ 2 ^ 32 := by
  rw [decodeVarint_writeVarint]
  norm_num

/-! ## Byte-range merging (`mergeRanges`, `src/fgb/index.ts`)

A `ByteRange` is an absolute file offset plus a byte length.  Offsets and
lengths are JS numbers; lengths can be negative upstream (see the index
query), so both components are modelled as `Int`.  The source's
`gap` parameter defaults to `512`; the model passes it explicitly. -/

/-- A contiguous byte range within the FGB file (`interface ByteRange`). -/
structure ByteRange where
  offset : Int
  length : Int
  deriving DecidableEq, Repr

/-- The merging loop of `mergeRanges`: `pending` is the open range still
being extended (the mutable `merged[merged.length - 1]` of the source);
a new range `curr` is folded into it when `curr.offset <= prevEnd + gap`,
setting the merged length to `max(prevEnd, currEnd) - prevStart`;
otherwise `pending` is emitted and `curr` starts a new pending range. -/
def mergeGo (gap : Int) (pending : ByteRange) : List ByteRange → List ByteRange
  | [] => [pending]
  | curr :: t =>
    let prevEnd := pending.offset + pending.length
    if curr.offset ≤ prevEnd + gap then
      mergeGo gap ⟨pending.offset, max prevEnd (curr.offset + curr.length) - pending.offset⟩ t
    else
      pending :: mergeGo gap curr t

/-- `mergeRanges` from `src/fgb/index.ts`: merge overlapping or nearby
(≤ `gap` bytes apart) byte ranges, assuming the input is sorted by offset. -/
def mergeRanges (ranges : List ByteRange) (gap : Int) : List ByteRange :=
  match ranges with
  | [] => []
  | r :: rest => mergeGo gap r rest

/-- Membership of byte `b` in range `r` (bytes `[offset, offset+length)`). -/
def covers (r : ByteRange) (b : Int) : Prop :=
  r.offset ≤ b ∧ b < r.offset + r.length

instance (r : ByteRange) (b : Int) : Decidable (covers r b) := by
  unfold covers; infer_instance

/-- Membership of byte `b` in the union of a list of ranges. -/
def rangeCovered (rs : List ByteRange) (b : Int) : Prop :=
  ∃ r ∈ rs, covers r b

instance (rs : List ByteRange) (b : Int) : Decidable (rangeCovered rs b) := by
  unfold rangeCovered; infer_instance

/-- `b` lies in an inter-range gap that the merge fills: walking the input
with the running end `e` of the union accumulated so far, a range starting
within `gap` of `e` contributes the gap bytes `[e, offset)`. -/
def gapFill (gap e : Int) (rs : List ByteRange) (b : Int) : Prop :=
  match rs with
  | [] => False
  | c :: t =>
    if c.offset ≤ e + gap then
      (e ≤ b ∧ b < c.offset) ∨ gapFill gap (max e (c.offset + c.length)) t b
    else
      gapFill gap (c.offset + c.length) t b

instance (gap e : Int) (rs : List ByteRange) (b : Int) : Decidable (gapFill gap e rs b) := by
  induction rs generalizing e with
  | nil => exact .isFalse (by simp [gapFill])
  | cons c t ih =>
    unfold gapFill
    by_cases h : c.offset ≤ e + gap
    · rw [if_pos h]; have := ih (max e (c.offset + c.length)); infer_instance
    · rw [if_neg h]; exact ih _

/-- `b` is a merge-filled gap byte for the whole input list. -/
def mergedGapByte (gap : Int) (rs : List ByteRange) (b : Int) : Prop :=
  match rs with
  | [] => False
  | r :: rest => gapFill gap (r.offset + r.length) rest b

instance (gap : Int) (rs : List ByteRange) (b : Int) : Decidable (mergedGapByte gap rs b) := by
  unfold mergedGapByte
  match rs with
  | [] => exact .isFalse (by simp)
  | r :: rest => infer_instance

/-- The first output range of the merge loop keeps `pending`'s offset. -/
theorem mergeGo_head (gap : Int) (pending : ByteRange) (rest : List ByteRange) :
    ∃ len t, mergeGo gap pending rest = ⟨pending.offset, len⟩ :: t := by
  induction rest generalizing pending with
  | nil => exact ⟨pending.length, [], rfl⟩
  | cons c t ih =>
    unfold mergeGo
    by_cases h : c.offset ≤ pending.offset + pending.length + gap
    · rw [if_pos h]
      exact ih _
    · rw [if_neg h]
      exact ⟨pending.length, _, rfl⟩

/-- Consecutive outputs of the merge loop are more than `gap` bytes apart. -/
theorem mergeGo_separated (gap : Int) (pending : ByteRange) (rest : List ByteRange) :
    (mergeGo gap pending rest).Chain'
      (fun a b => a.offset + a.length + gap < b.offset) := by
  induction rest generalizing pending with
  | nil => simp [mergeGo]
  | cons c t ih =>
    unfold mergeGo
    by_cases h : c.offset ≤ pending.offset + pending.length + gap
    · rw [if_pos h]
      exact ih _
    · rw [if_neg h]
      obtain ⟨len, t', ht⟩ := mergeGo_head gap c t
      rw [ht]
      exact List.Chain'.cons (by simpa using by omega) (ht ▸ ih c)

/-- Splitting coverage of a cons cell. -/
theorem rangeCovered_cons (c : ByteRange) (t : List ByteRange) (b : Int) :
    rangeCovered (c :: t) b ↔ covers c b ∨ rangeCovered t b := by
  simp [rangeCovered]

/-- Coverage of the merge loop's output: a byte is covered iff it was
covered by `pending`, covered by a remaining input range, or lies in a
gap (≤ `gap` bytes) between the accumulated union end and the next range. -/
theorem mergeGo_coverage (gap : Int) (pending : ByteRange) (rest : List ByteRange)
    (hp : 0 ≤ pending.length)
    (hlen : ∀ r ∈ rest, 0 ≤ r.length)
    (hord : ∀ r ∈ rest, pending.offset ≤ r.offset)
    (hpair : rest.Pairwise (fun a b => a.offset ≤ b.offset)) (b : Int) :
    rangeCovered (mergeGo gap pending rest) b ↔
      (covers pending b ∨ rangeCovered rest b ∨
        gapFill gap (pending.offset + pending.length) rest b) := by
  induction rest generalizing pending with
  | nil =>
    simp [mergeGo, rangeCovered, gapFill]
  | cons c t ih =>
    unfold mergeGo gapFill
    have hco : pending.offset ≤ c.offset := hord c (by simp)
    have hcl : 0 ≤ c.length := hlen c (by simp)
    by_cases h : c.offset ≤ pending.offset + pending.length + gap
    · rw [if_pos h, if_pos h]
      have hrec := ih
        ⟨pending.offset,
          max (pending.offset + pending.length) (c.offset + c.length) - pending.offset⟩
        (by dsimp only; omega)
        (fun r hr => hlen r (List.mem_cons_of_mem _ hr))
        (fun r hr => hord r (List.mem_cons_of_mem _ hr))
        hpair.of_cons
      dsimp only at hrec
      have he : ∀ a m : Int, a + (m - a) = m := by intro a m; ring
      rw [he] at hrec
      rw [hrec, rangeCovered_cons]
      have hkey : covers
          ⟨pending.offset,
            max (pending.offset + pending.length) (c.offset + c.length) - pending.offset⟩ b
          ↔ covers pending b ∨ covers c b ∨
            (pending.offset + pending.length ≤ b ∧ b < c.offset) := by
        unfold covers
        dsimp only
        rcases le_or_lt (pending.offset + pending.length) (c.offset + c.length) with hm | hm
        · rw [max_eq_right hm]
          omega
        · rw [max_eq_left hm.le]
          omega
      rw [hkey]
      constructor
      · rintro ((hA | hB | hG) | hT | hF)
        exacts [Or.inl hA, Or.inr (Or.inl (Or.inl hB)), Or.inr (Or.inr (Or.inl hG)),
          Or.inr (Or.inl (Or.inr hT)), Or.inr (Or.inr (Or.inr hF))]
      · rintro (hA | (hB | hT) | (hG | hF))
        exacts [Or.inl (Or.inl hA), Or.inl (Or.inr (Or.inl hB)), Or.inr (Or.inl hT),
          Or.inl (Or.inr (Or.inr hG)), Or.inr (Or.inr hF)]
    · rw [if_neg h, if_neg h]
      have hpt : ∀ r ∈ t, c.offset ≤ r.offset := by
        intro r hr
        exact (List.pairwise_cons.mp hpair).1 r hr
      have hrec := ih c hcl (fun r hr => hlen r (List.mem_cons_of_mem _ hr)) hpt
        hpair.of_cons
      rw [rangeCovered_cons, hrec, rangeCovered_cons]
      constructor
      · rintro (hA | hB | hT | hF)
        exacts [Or.inl hA, Or.inr (Or.inl (Or.inl hB)), Or.inr (Or.inl (Or.inr hT)),
          Or.inr (Or.inr hF)]
      · rintro (hA | (hB | hT) | hF)
        exacts [Or.inl hA, Or.inr (Or.inl hB), Or.inr (Or.inr (Or.inl hT)),
          Or.inr (Or.inr (Or.inr hF))]

/-- C6: for input ranges sorted ascending by offset (with non-negative
lengths), the bytes covered by `mergeRanges` (with `GAP = 512`) are exactly
the bytes covered by the inputs plus the inter-range gap bytes of at most
`GAP` (a gap being the interval between the running end of the accumulated
union and the next range's start, merged precisely when that start is at
most the running end + `GAP`, the merged length being
`max(prevEnd, currEnd) - prevStart`); and consecutive output ranges are
always more than `GAP` bytes apart (never within `GAP`+1 bytes). -/
theorem mergeRanges_coverage_and_separation (rs : List ByteRange)
    (hlen : ∀ r ∈ rs, 0 ≤ r.length)
    (hsort : rs.Chain' (fun a b => a.offset ≤ b.offset)) :
    (∀ b : Int, rangeCovered (mergeRanges rs 512) b ↔
      (rangeCovered rs b ∨ mergedGapByte 512 rs b)) ∧
    (mergeRanges rs 512).Chain'
      (fun a b => a.offset + a.length + 512 < b.offset) := by
  match rs with
  | [] =>
    refine ⟨fun b => ?_, by simp [mergeRanges]⟩
    simp [mergeRanges, rangeCovered, mergedGapByte]
  | r :: rest =>
    haveI : IsTrans ByteRange (fun a b => a.offset ≤ b.offset) :=
      ⟨fun _ _ _ h1 h2 => le_trans h1 h2⟩
    have hpair := List.chain'_iff_pairwise.mp hsort
    have hhead : ∀ x ∈ rest, r.offset ≤ x.offset :=
      (List.pairwise_cons.mp hpair).1
    constructor
    · intro b
      have hcov := mergeGo_coverage 512 r rest (hlen r (by simp))
        (fun x hx => hlen x (List.mem_cons_of_mem _ hx)) hhead hpair.of_cons b
      show rangeCovered (mergeGo 512 r rest) b ↔ _
      rw [hcov, rangeCovered_cons]
      unfold mergedGapByte
      constructor
      · rintro (h | h | h)
        exacts [Or.inl (Or.inl h), Or.inl (Or.inr h), Or.inr h]
      · rintro ((h | h) | h)
        exacts [Or.inl h, Or.inr (Or.inl h), Or.inr (Or.inr h)]
    · exact mergeGo_separated 512 r rest

/-- C6 (witness): the theorem applied to the concrete sorted input
`[(0,10), (300, 10), (2000, 5)]`.  The first two ranges are 290 bytes
apart and merge (byte 200 is a filled gap byte); the third stays separate
(byte 1000 is covered by neither side). -/
theorem mergeRanges_coverage_witness :
    (rangeCovered
        (mergeRanges [⟨0, 10⟩, ⟨300, 10⟩, ⟨2000, 5⟩] 512) 200 ↔
      (rangeCovered [⟨0, 10⟩, ⟨300, 10⟩, ⟨2000, 5⟩] 200 ∨
        mergedGapByte 512 [⟨0, 10⟩, ⟨300, 10⟩, ⟨2000, 5⟩] 200)) ∧
    (rangeCovered
        (mergeRanges [⟨0, 10⟩, ⟨300, 10⟩, ⟨2000, 5⟩] 512) 1000 ↔
      (rangeCovered [⟨0, 10⟩, ⟨300, 10⟩, ⟨2000, 5⟩] 1000 ∨
        mergedGapByte 512 [⟨0, 10⟩, ⟨300, 10⟩, ⟨2000, 5⟩] 1000)) ∧
    (mergeRanges [⟨0, 10⟩, ⟨300, 10⟩, ⟨2000, 5⟩] 512).Chain'
      (fun a b => a.offset + a.length + 512 < b.offset) := by
  have h := mergeRanges_coverage_and_separation
    [⟨0, 10⟩, ⟨300, 10⟩, ⟨2000, 5⟩]
    (by decide) (by simp [List.chain'_cons])
  exact ⟨h.1 200, h.1 1000, h.2⟩

/-! ## Packed R-tree level computation (`src/fgb/header.ts`, `src/fgb/index.ts`)

Both `calcIndexSize` and `computeLevelBounds` run the bottom-up loop
`while (n > 1) { n = Math.ceil(n / nodeSize); ... }`.  The loop is modelled
with explicit fuel: `none` marks the iteration budget running out, which
for `nodeSize = 1` (where `ceil(n/1) = n` makes no progress) happens for
every finite budget — i.e. the source loop diverges. -/

/-- `Math.ceil(n / k)` on naturals, for `k ≥ 1`. -/
def ceilDiv (n k : Nat) : Nat := (n + k - 1) / k

/-- The per-level node counts `[featuresCount, …, 1]` produced by the
bottom-up loop, or `none` when `fuel` iterations do not reach a single
root. -/
def levelNumNodesF (nodeSize : Nat) : Nat → Nat → Option (List Nat)
  | fuel, n =>
    if n ≤ 1 then some [n]
    else
      match fuel with
      | 0 => none
      | fuel' + 1 => (levelNumNodesF nodeSize fuel' (ceilDiv n nodeSize)).map (n :: ·)

/-- Assign `[start, end)` node-index ranges to a (root-first) list of level
counts, threading the running offset — the second loop of
`computeLevelBounds`. -/
def assignBounds (off : Nat) : List Nat → List (Nat × Nat)
  | [] => []
  | c :: t => (off, off + c) :: assignBounds (off + c) t

/-- `computeLevelBounds` from `src/fgb/index.ts`: per-level `[start, end)`
node-index pairs, leaf level first (`result[0]`), root last.  The code
iterates the counts array from its last entry (the root) downward while
accumulating the offset; here that is `assignBounds` over the reversed
counts, reversed back. -/
def computeLevelBounds (featuresCount nodeSize : Nat) : Option (List (Nat × Nat)) :=
  (levelNumNodesF nodeSize featuresCount featuresCount).map
    (fun counts => (assignBounds 0 counts.reverse).reverse)

/-- `calcIndexSize` from `src/fgb/header.ts`: 40 bytes per node, summed
across all levels; `0` when there are no features or no index. -/
def calcIndexSize (featuresCount nodeSize : Nat) : Option Nat :=
  if featuresCount = 0 ∨ nodeSize = 0 then some 0
  else (levelNumNodesF nodeSize featuresCount featuresCount).map
    (fun counts => counts.sum * 40)

/-- With fan-out at least 2, one loop iteration strictly shrinks `n`. -/
theorem ceilDiv_lt (n k : Nat) (hk : 2 ≤ k) (hn : 2 ≤ n) : ceilDiv n k < n := by
  unfold ceilDiv
  rw [Nat.div_lt_iff_lt_mul (by omega)]
  obtain ⟨m, rfl⟩ : ∃ m, k = m + 1 := ⟨k - 1, by omega⟩
  have hm : 2 * m ≤ n * m := Nat.mul_le_mul_right m (by omega)
  have : n * (m + 1) = n * m + n := by ring
  omega

/-- Fuel `n` is always enough when the fan-out is at least 2. -/
theorem levelNumNodesF_total (k : Nat) (hk : 2 ≤ k) :
    ∀ fuel n, n ≤ fuel + 1 → (levelNumNodesF k fuel n).isSome := by
  intro fuel
  induction fuel with
  | zero =>
    intro n hn
    unfold levelNumNodesF
    rw [if_pos (by omega)]
    rfl
  | succ fuel ih =>
    intro n hn
    unfold levelNumNodesF
    by_cases h1 : n ≤ 1
    · rw [if_pos h1]; rfl
    · rw [if_neg h1]
      have hlt := ceilDiv_lt n k hk (by omega)
      have := ih (ceilDiv n k) (by omega)
      simpa using this

/-- With fan-out 1 and more than one feature the loop never terminates:
`ceil(n/1) = n`, so every finite fuel budget is exhausted. -/
theorem levelNumNodesF_diverges_at_one :
    ∀ fuel n, 2 ≤ n → levelNumNodesF 1 fuel n = none := by
  intro fuel
  induction fuel with
  | zero =>
    intro n hn
    unfold levelNumNodesF
    rw [if_neg (by omega)]
  | succ fuel ih =>
    intro n hn
    unfold levelNumNodesF
    rw [if_neg (by omega)]
    have hc : ceilDiv n 1 = n := by unfold ceilDiv; omega
    simp only [hc, ih n hn, Option.map_none']

/-- C10: the bottom-up level loop of `calcIndexSize` and
`computeLevelBounds` terminates for every `featuresCount` once
`nodeSize ≥ 2` — each iteration strictly decreases `n` — so both are total
there; and the precondition is necessary: with `nodeSize = 1` and at least
two features the step makes no progress (`ceilDiv n 1 = n`) and the loop
exhausts every fuel budget. -/
theorem levelLoop_total_iff_nodeSize_ge_two :
    (∀ featuresCount nodeSize : Nat, 2 ≤ nodeSize →
      (calcIndexSize featuresCount nodeSize).isSome ∧
      (computeLevelBounds featuresCount nodeSize).isSome) ∧
    (∀ n k : Nat, 2 ≤ k → 2 ≤ n → ceilDiv n k < n) ∧
    (∀ fuel n : Nat, 2 ≤ n → levelNumNodesF 1 fuel n = none) := by
  refine ⟨fun fc ns hns => ?_, fun n k hk hn => ceilDiv_lt n k hk hn,
    levelNumNodesF_diverges_at_one⟩
  have hsome := levelNumNodesF_total ns hns fc fc (by omega)
  constructor
  · unfold calcIndexSize
    by_cases h0 : fc = 0 ∨ ns = 0
    · rw [if_pos h0]; rfl
    · rw [if_neg h0]
      simpa using hsome
  · unfold computeLevelBounds
    simpa using hsome

/-- C10 (witness): at the documented example `featuresCount = 3221`,
`nodeSize = 16` the computation succeeds; with `nodeSize = 1` the loop
diverges for two features. -/
theorem levelLoop_total_witness :
    ((calcIndexSize 3221 16).isSome ∧ (computeLevelBounds 3221 16).isSome) ∧
    ceilDiv 3221 16 < 3221 ∧
    levelNumNodesF 1 5 2 = none := by
  refine ⟨levelLoop_total_iff_nodeSize_ge_two.1 3221 16 (by norm_num),
    levelLoop_total_iff_nodeSize_ge_two.2.1 3221 16 (by norm_num) (by norm_num),
    levelLoop_total_iff_nodeSize_ge_two.2.2 5 2 (by norm_num)⟩

/-! ## Spatial index query (`queryIndex`, `src/fgb/index.ts`)

The index buffer is a sequence of 40-byte node records
(`4 × f64 bbox + u64 offset`); the model pre-decodes it into a list of
`IndexNode` (bbox coordinates as `Rat`, offset as `Nat`), so the source's
byte-length check `nodeIdx * 40 + 40 > indexBytes.length` becomes
`nodes.length ≤ nodeIdx`.  The unchecked `DataView` reads in the
range-derivation phase (which throw `RangeError` when out of bounds) are
modelled with `Except`.  The traversal's `while` loop is modelled with a
fuel that provably dominates the loop's termination measure
(`queryLoopF_fuel_irrelevant`), so the fuel cutoff is never observable. -/

/-- One decoded 40-byte packed R-tree node record. -/
structure IndexNode where
  minX : Rat
  minY : Rat
  maxX : Rat
  maxY : Rat
  offset : Nat
  deriving DecidableEq, Repr

/-- A query bounding box (`BBox` of `src/types.ts`), coordinates as `Rat`. -/
structure BBoxQ where
  minX : Rat
  minY : Rat
  maxX : Rat
  maxY : Rat
  deriving DecidableEq, Repr

/-- Termination measure of the traversal stack: each `(index, level)` entry
weighs `(nodeSize+1)^level`.  Popping an entry and pushing its at most
`nodeSize` children (one level down) strictly decreases the total. -/
def stackWeight (nodeSize : Nat) (stack : List (Nat × Nat)) : Nat :=
  (stack.map fun p => (nodeSize + 1) ^ p.2).sum

/-- The stack-based top-down traversal of `queryIndex` (`while (stack.length > 0)`),
fueled.  Entries are `(nodeIndex, level)` with the JS array's top at the list
head.  A node read beyond the buffer end (`break`) returns the matches
collected so far; a bbox miss skips the node; a level-0 hit records a leaf;
an internal hit pushes the child range `[firstChild, min(firstChild+nodeSize,
childLevelEnd))`, top = highest index. -/
def queryLoopF (nodes : List IndexNode) (nodeSize : Nat)
    (levelBounds : List (Nat × Nat)) (bbox : BBoxQ) :
    Nat → List (Nat × Nat) → List Nat → List Nat
  | 0, _, acc => acc
  | _ + 1, [], acc => acc
  | fuel + 1, (nodeIdx, level) :: rest, acc =>
    if nodes.length ≤ nodeIdx then acc
    else
      let nd := nodes.getD nodeIdx ⟨0, 0, 0, 0, 0⟩
      if nd.maxX < bbox.minX ∨ nd.minX > bbox.maxX ∨
          nd.maxY < bbox.minY ∨ nd.minY > bbox.maxY then
        queryLoopF nodes nodeSize levelBounds bbox fuel rest acc
      else if level = 0 then
        queryLoopF nodes nodeSize levelBounds bbox fuel rest (acc ++ [nodeIdx])
      else
        let firstChild := nd.offset
        let childLevelEnd := (levelBounds.getD (level - 1) (0, 0)).2
        let childEnd := min (firstChild + nodeSize) childLevelEnd
        queryLoopF nodes nodeSize levelBounds bbox fuel
          (((List.range' firstChild (childEnd - firstChild)).map
            (fun i => (i, level - 1))).reverse ++ rest) acc

/-- Insertion into a sorted list (ascending). -/
def insertSorted (x : Nat) : List Nat → List Nat
  | [] => [x]
  | y :: t => if x ≤ y then x :: y :: t else y :: insertSorted x t

/-- `matchingLeafIndices.sort((a, b) => a - b)`: ascending sort. -/
def sortAsc (l : List Nat) : List Nat := l.foldr insertSorted []

/-- An indexed node read with no preceding bounds check: the source's
`DataView` access, which throws `RangeError` when out of bounds. -/
def getNode (nodes : List IndexNode) (i : Nat) : Except String IndexNode :=
  match nodes.get? i with
  | some nd => .ok nd
  | none => .error "RangeError: out-of-bounds node read"

/-- Convert sorted matching leaf indices to byte ranges: each leaf's stored
offset becomes `featuresOffset + offset`; the length is the (possibly
negative!) difference to the next leaf's offset, or 1 MiB for a leaf with
no in-tree successor (`nodeIdx + 1 >= leafEnd`). -/
def deriveRanges (nodes : List IndexNode) (leafEnd featuresOffset : Nat) :
    List Nat → Except String (List ByteRange)
  | [] => .ok []
  | idx :: rest => do
    let nd ← getNode nodes idx
    let len : Int ←
      if idx + 1 < leafEnd then do
        let nd2 ← getNode nodes (idx + 1)
        pure ((nd2.offset : Int) - (nd.offset : Int))
      else
        pure 1048576
    let rs ← deriveRanges nodes leafEnd featuresOffset rest
    pure (⟨(featuresOffset : Int) + (nd.offset : Int), len⟩ :: rs)

/-- `queryIndex` from `src/fgb/index.ts`: traverse the packed Hilbert
R-tree, collect intersecting leaves, sort them, derive byte ranges, and
merge them (GAP = 512).  `.error` arises only from the level loop diverging
(`nodeSize = 1`, which hangs the source) or an out-of-bounds node read in
the derivation phase (a JS `RangeError`); no “Malformed” validation exists. -/
def queryIndex (indexNodes : List IndexNode) (featuresCount nodeSize : Nat)
    (featuresOffset : Nat) (bbox : BBoxQ) : Except String (List ByteRange) :=
  if featuresCount = 0 ∨ nodeSize = 0 then .ok []
  else
    match computeLevelBounds featuresCount nodeSize with
    | none => .error "level-bounds loop diverges"
    | some levelBounds =>
      let leafEnd := (levelBounds.getD 0 (0, 0)).2
      let rootLevel := levelBounds.length - 1
      let rootBounds := levelBounds.getD rootLevel (0, 0)
      let stack0 := ((List.range' rootBounds.1 (rootBounds.2 - rootBounds.1)).map
        (fun i => (i, rootLevel))).reverse
      let matching := queryLoopF indexNodes nodeSize levelBounds bbox
        (stackWeight nodeSize stack0 + 1) stack0 []
      if matching = [] then .ok []
      else do
        let ranges ← deriveRanges indexNodes leafEnd featuresOffset (sortAsc matching)
        pure (mergeRanges ranges 512)

/-- Weight of a pushed child block: `count` entries at one level. -/
theorem stackWeight_children (nodeSize : Nat) (L : List Nat) (lv : Nat)
    (rest : List (Nat × Nat)) :
    stackWeight nodeSize ((L.map (fun i => (i, lv))).reverse ++ rest)
      = L.length * (nodeSize + 1) ^ lv + stackWeight nodeSize rest := by
  unfold stackWeight
  rw [List.map_append, List.sum_append, List.map_reverse, List.sum_reverse,
    List.map_map]
  have : (L.map ((fun p : Nat × Nat => (nodeSize + 1) ^ p.2) ∘ fun i => (i, lv))).sum
      = L.length * (nodeSize + 1) ^ lv := by
    induction L with
    | nil => simp
    | cons a t ih => simp [ih]; ring
  rw [this]

/-- The fuel cutoff of `queryLoopF` is unreachable: any two fuels above the
stack's weight give the same result, so the fueled loop is a faithful model
of the source's unbounded `while` loop. -/
theorem queryLoopF_fuel_irrelevant (nodes : List IndexNode) (nodeSize : Nat)
    (levelBounds : List (Nat × Nat)) (bbox : BBoxQ) :
    ∀ fuel1 fuel2 stack acc, stackWeight nodeSize stack < fuel1 →
      stackWeight nodeSize stack < fuel2 →
      queryLoopF nodes nodeSize levelBounds bbox fuel1 stack acc
        = queryLoopF nodes nodeSize levelBounds bbox fuel2 stack acc := by
  intro fuel1
  induction fuel1 with
  | zero => intro fuel2 stack acc h1 _; omega
  | succ f ih =>
    intro fuel2 stack acc h1 h2
    match fuel2 with
    | 0 => omega
    | g + 1 =>
      match stack with
      | [] => rfl
      | (nodeIdx, level) :: rest =>
        have hw : stackWeight nodeSize ((nodeIdx, level) :: rest)
            = (nodeSize + 1) ^ level + stackWeight nodeSize rest := by
          unfold stackWeight; simp
        have hpos : 1 ≤ (nodeSize + 1) ^ level := Nat.one_le_pow _ _ (by omega)
        show queryLoopF nodes nodeSize levelBounds bbox (f + 1)
            ((nodeIdx, level) :: rest) acc = _
        unfold queryLoopF
        by_cases hb : nodes.length ≤ nodeIdx
        · rw [if_pos hb, if_pos hb]
        · rw [if_neg hb, if_neg hb]
          by_cases hint : (nodes.getD nodeIdx ⟨0, 0, 0, 0, 0⟩).maxX < bbox.minX ∨
              (nodes.getD nodeIdx ⟨0, 0, 0, 0, 0⟩).minX > bbox.maxX ∨
              (nodes.getD nodeIdx ⟨0, 0, 0, 0, 0⟩).maxY < bbox.minY ∨
              (nodes.getD nodeIdx ⟨0, 0, 0, 0, 0⟩).minY > bbox.maxY
          · rw [if_pos hint, if_pos hint]
            exact ih g rest acc (by omega) (by omega)
          · rw [if_neg hint, if_neg hint]
            by_cases hl : level = 0
            · rw [if_pos hl, if_pos hl]
              exact ih g rest (acc ++ [nodeIdx]) (by omega) (by omega)
            · rw [if_neg hl, if_neg hl]
              have hcw := stackWeight_children nodeSize
                (List.range' (nodes.getD nodeIdx ⟨0, 0, 0, 0, 0⟩).offset
                  (min ((nodes.getD nodeIdx ⟨0, 0, 0, 0, 0⟩).offset + nodeSize)
                      (levelBounds.getD (level - 1) (0, 0)).2
                    - (nodes.getD nodeIdx ⟨0, 0, 0, 0, 0⟩).offset))
                (level - 1) rest
              have hcnt : (List.range' (nodes.getD nodeIdx ⟨0, 0, 0, 0, 0⟩).offset
                  (min ((nodes.getD nodeIdx ⟨0, 0, 0, 0, 0⟩).offset + nodeSize)
                      (levelBounds.getD (level - 1) (0, 0)).2
                    - (nodes.getD nodeIdx ⟨0, 0, 0, 0, 0⟩).offset)).length
                  ≤ nodeSize := by
                rw [List.length_range']
                omega
              have hexp : (nodeSize + 1) ^ level
                  = (nodeSize + 1) * (nodeSize + 1) ^ (level - 1) := by
                conv_lhs => rw [show level = (level - 1) + 1 by omega]
                ring
              have hposc : 1 ≤ (nodeSize + 1) ^ (level - 1) :=
                Nat.one_le_pow _ _ (by omega)
              have hsplit : (nodeSize + 1) * (nodeSize + 1) ^ (level - 1)
                  = nodeSize * (nodeSize + 1) ^ (level - 1)
                    + (nodeSize + 1) ^ (level - 1) := by ring
              rw [hw, hexp] at h1 h2
              have hmul : (List.range' (nodes.getD nodeIdx ⟨0, 0, 0, 0, 0⟩).offset
                  (min ((nodes.getD nodeIdx ⟨0, 0, 0, 0, 0⟩).offset + nodeSize)
                      (levelBounds.getD (level - 1) (0, 0)).2
                    - (nodes.getD nodeIdx ⟨0, 0, 0, 0, 0⟩).offset)).length
                  * (nodeSize + 1) ^ (level - 1)
                  ≤ nodeSize * (nodeSize + 1) ^ (level - 1) :=
                Nat.mul_le_mul_right _ hcnt
              refine ih g _ acc ?_ ?_
              · rw [hcw]
                omega
              · rw [hcw]
                omega

/-- Every index the traversal collects passed the in-bounds check. -/
theorem queryLoopF_acc_lt (nodes : List IndexNode) (nodeSize : Nat)
    (levelBounds : List (Nat × Nat)) (bbox : BBoxQ) :
    ∀ fuel stack acc, (∀ i ∈ acc, i < nodes.length) →
      ∀ i ∈ queryLoopF nodes nodeSize levelBounds bbox fuel stack acc,
        i < nodes.length := by
  intro fuel
  induction fuel with
  | zero => intro stack acc hacc; exact hacc
  | succ f ih =>
    intro stack acc hacc
    match stack with
    | [] => exact hacc
    | (nodeIdx, level) :: rest =>
      unfold queryLoopF
      by_cases hb : nodes.length ≤ nodeIdx
      · rw [if_pos hb]; exact hacc
      · rw [if_neg hb]
        by_cases hint : (nodes.getD nodeIdx ⟨0, 0, 0, 0, 0⟩).maxX < bbox.minX ∨
            (nodes.getD nodeIdx ⟨0, 0, 0, 0, 0⟩).minX > bbox.maxX ∨
            (nodes.getD nodeIdx ⟨0, 0, 0, 0, 0⟩).maxY < bbox.minY ∨
            (nodes.getD nodeIdx ⟨0, 0, 0, 0, 0⟩).minY > bbox.maxY
        · rw [if_pos hint]
          exact ih rest acc hacc
        · rw [if_neg hint]
          by_cases hl : level = 0
          · rw [if_pos hl]
            refine ih rest (acc ++ [nodeIdx]) ?_
            intro i hi
            rcases List.mem_append.mp hi with hi | hi
            · exact hacc i hi
            · simp only [List.mem_singleton] at hi
              omega
          · rw [if_neg hl]
            exact ih _ acc hacc

/-- `insertSorted` only rearranges; membership is preserved. -/
theorem insertSorted_mem (x y : Nat) (l : List Nat)
    (h : x ∈ insertSorted y l) : x = y ∨ x ∈ l := by
  induction l with
  | nil => simpa [insertSorted] using h
  | cons a t ih =>
    unfold insertSorted at h
    by_cases hc : y ≤ a
    · rw [if_pos hc] at h
      rcases List.mem_cons.mp h with h | h
      · exact Or.inl h
      · exact Or.inr h
    · rw [if_neg hc] at h
      rcases List.mem_cons.mp h with h | h
      · exact Or.inr (h ▸ List.mem_cons_self a t)
      · rcases ih h with h | h
        · exact Or.inl h
        · exact Or.inr (List.mem_cons_of_mem a h)

/-- `sortAsc` only rearranges; membership is preserved. -/
theorem sortAsc_mem (x : Nat) (l : List Nat) (h : x ∈ sortAsc l) : x ∈ l := by
  induction l with
  | nil => simpa [sortAsc] using h
  | cons a t ih =>
    unfold sortAsc at h
    simp only [List.foldr_cons] at h
    rcases insertSorted_mem x a _ h with h | h
    · exact h ▸ List.mem_cons_self a t
    · exact List.mem_cons_of_mem a (ih h)

/-- Every `[start, end)` pair assigned by `assignBounds` ends within the
total node count. -/
theorem assignBounds_snd_le (L : List Nat) :
    ∀ off p, p ∈ assignBounds off L → p.2 ≤ off + L.sum := by
  induction L with
  | nil => intro off p hp; simp [assignBounds] at hp
  | cons c t ih =>
    intro off p hp
    unfold assignBounds at hp
    rcases List.mem_cons.mp hp with rfl | hp
    · simp only [List.sum_cons]
      omega
    · have := ih (off + c) p hp
      simp only [List.sum_cons]
      omega

/-- Range derivation succeeds whenever the buffer holds the whole leaf
level (regardless of the stored offsets' values or order). -/
theorem deriveRanges_ok (nodes : List IndexNode) (leafEnd fo : Nat)
    (hle : leafEnd ≤ nodes.length) :
    ∀ l, (∀ i ∈ l, i < nodes.length) →
      ∃ rs, deriveRanges nodes leafEnd fo l = .ok rs := by
  intro l
  induction l with
  | nil => exact fun _ => ⟨[], rfl⟩
  | cons idx rest ih =>
    intro hmem
    obtain ⟨rs, hrs⟩ := ih (fun i hi => hmem i (List.mem_cons_of_mem _ hi))
    have hidx : idx < nodes.length := hmem idx (List.mem_cons_self _ _)
    obtain ⟨nd, hnd⟩ : ∃ nd, nodes.get? idx = some nd :=
      ⟨nodes.get ⟨idx, hidx⟩, List.get?_eq_get hidx⟩
    have hg1 : getNode nodes idx = .ok nd := by unfold getNode; rw [hnd]
    unfold deriveRanges
    by_cases hnext : idx + 1 < leafEnd
    · have hidx2 : idx + 1 < nodes.length := by omega
      obtain ⟨nd2, hnd2⟩ : ∃ nd2, nodes.get? (idx + 1) = some nd2 :=
        ⟨nodes.get ⟨idx + 1, hidx2⟩, List.get?_eq_get hidx2⟩
      have hg2 : getNode nodes (idx + 1) = .ok nd2 := by unfold getNode; rw [hnd2]
      refine ⟨⟨(fo : Int) + (nd.offset : Int),
        (nd2.offset : Int) - (nd.offset : Int)⟩ :: rs, ?_⟩
      simp [hg1, hg2, hrs, hnext, Bind.bind, Except.bind, pure, Except.pure]
    · refine ⟨⟨(fo : Int) + (nd.offset : Int), 1048576⟩ :: rs, ?_⟩
      simp [hg1, hrs, hnext, Bind.bind, Except.bind, pure, Except.pure]

/-- With an empty node buffer the traversal stops immediately. -/
theorem queryLoopF_nil_nodes (nodeSize : Nat) (levelBounds : List (Nat × Nat))
    (bbox : BBoxQ) (fuel : Nat) (stack : List (Nat × Nat)) (acc : List Nat) :
    queryLoopF [] nodeSize levelBounds bbox fuel stack acc = acc := by
  match fuel, stack with
  | 0, _ => rfl
  | _ + 1, [] => rfl
  | f + 1, (nodeIdx, level) :: rest =>
    unfold queryLoopF
    rw [if_pos (by simp)]

/-- C2 (amended): `queryIndex` performs no "Malformed index" or "Malformed
offset" validation. (1) Whenever the index buffer holds all
`totalNodes` records, the query returns a normal result for **any** stored
byte offsets — monotonically increasing or not (non-monotone offsets merely
yield negative lengths). (2) A buffer shorter than required does not raise
a malformed-index failure either: the traversal silently stops at the first
out-of-range node read; in particular an empty buffer returns `ok []`. -/
theorem queryIndex_no_malformed_failure :
    (∀ (nodes : List IndexNode) (fc ns fo : Nat) (bb : BBoxQ) (counts : List Nat),
      2 ≤ ns → levelNumNodesF ns fc fc = some counts →
      counts.sum ≤ nodes.length →
      ∃ rs, queryIndex nodes fc ns fo bb = .ok rs) ∧
    (∀ (fc ns fo : Nat) (bb : BBoxQ), 1 ≤ fc → 2 ≤ ns →
      queryIndex [] fc ns fo bb = .ok []) := by
  constructor
  · intro nodes fc ns fo bb counts hns hcounts hbuf
    by_cases hguard : fc = 0 ∨ ns = 0
    · refine ⟨[], ?_⟩
      unfold queryIndex
      rw [if_pos hguard]
    · have hlb : computeLevelBounds fc ns
          = some ((assignBounds 0 counts.reverse).reverse) := by
        unfold computeLevelBounds
        rw [hcounts]
        rfl
      unfold queryIndex
      rw [if_neg hguard, hlb]
      simp only
      set lb := (assignBounds 0 counts.reverse).reverse with hlbdef
      set leafEnd := (lb.getD 0 (0, 0)).2 with hleafEnd
      have hle : leafEnd ≤ nodes.length := by
        have hsum : leafEnd ≤ counts.sum := by
          match hcase : lb with
          | [] => simp [hleafEnd, hcase]
          | p :: t =>
            have hp2 : p ∈ assignBounds 0 counts.reverse := by
              refine (List.mem_reverse).mp ?_
              rw [← hlbdef]
              exact List.mem_cons_self _ _
            have := assignBounds_snd_le counts.reverse 0 p hp2
            rw [List.sum_reverse] at this
            simp only [hleafEnd, hcase, List.getD_cons_zero]
            omega
        omega
      set rootLevel := lb.length - 1
      set rootBounds := lb.getD rootLevel (0, 0)
      set stack0 := ((List.range' rootBounds.1 (rootBounds.2 - rootBounds.1)).map
        (fun i => (i, rootLevel))).reverse with hstack0
      set matching := queryLoopF nodes ns lb bb (stackWeight ns stack0 + 1) stack0 []
        with hmatching
      by_cases hm : matching = []
      · refine ⟨[], ?_⟩
        rw [if_pos hm]
      · rw [if_neg hm]
        have hmem : ∀ i ∈ sortAsc matching, i < nodes.length := by
          intro i hi
          refine queryLoopF_acc_lt nodes ns lb bb
            (stackWeight ns stack0 + 1) stack0 [] (by simp) i ?_
          rw [← hmatching]
          exact sortAsc_mem i matching hi
        obtain ⟨rs, hrs⟩ := deriveRanges_ok nodes leafEnd fo hle (sortAsc matching) hmem
        refine ⟨mergeRanges rs 512, ?_⟩
        simp [hrs, Bind.bind, Except.bind, pure, Except.pure]
  · intro fc ns fo bb hfc hns
    have hguard : ¬(fc = 0 ∨ ns = 0) := by omega
    obtain ⟨counts, hcounts⟩ :=
      Option.isSome_iff_exists.mp (levelNumNodesF_total ns hns fc fc (by omega))
    have hlb : computeLevelBounds fc ns
        = some ((assignBounds 0 counts.reverse).reverse) := by
      unfold computeLevelBounds
      rw [hcounts]
      rfl
    unfold queryIndex
    rw [if_neg hguard, hlb]
    simp only
    rw [queryLoopF_nil_nodes]
    rfl

/-- C2 (witness): the complete-buffer half of the theorem at a concrete
3-node tree (2 features, fan-out 2) whose leaf offsets are *decreasing*
(100 then 0): the query still returns normally. -/
theorem queryIndex_no_malformed_failure_witness :
    (∃ rs, queryIndex
      [⟨0, 0, 0, 0, 1⟩, ⟨0, 0, 0, 0, 100⟩, ⟨0, 0, 0, 0, 0⟩]
      2 2 100 ⟨0, 0, 0, 0⟩ = .ok rs) ∧
    queryIndex [] 2 2 100 ⟨0, 0, 0, 0⟩ = .ok [] := by
  refine ⟨queryIndex_no_malformed_failure.1
    [⟨0, 0, 0, 0, 1⟩, ⟨0, 0, 0, 0, 100⟩, ⟨0, 0, 0, 0, 0⟩]
    2 2 100 ⟨0, 0, 0, 0⟩ [2, 1] (by norm_num) (by decide) (by decide),
    queryIndex_no_malformed_failure.2 2 2 100 ⟨0, 0, 0, 0⟩ (by norm_num) (by norm_num)⟩

/-- C2 (counterexample to the claim as stated): a 2-feature index whose
buffer holds only 1 of the 3 required nodes (shorter than
`totalNodes * 40`) returns the normal result `ok []` instead of failing;
and a complete buffer whose leaf offsets are non-monotone (100 then 0)
returns a normal merged range list instead of failing. -/
theorem queryIndex_returns_normally_on_malformed_input :
    queryIndex [⟨0, 0, 0, 0, 1⟩] 2 2 100 ⟨0, 0, 0, 0⟩ = .ok [] ∧
    queryIndex [⟨0, 0, 0, 0, 1⟩, ⟨0, 0, 0, 0, 100⟩, ⟨0, 0, 0, 0, 0⟩]
      2 2 100 ⟨0, 0, 0, 0⟩ = .ok [⟨200, 1048476⟩] := by
  exact ⟨rfl, rfl⟩

/-! ## FGB property decoding (`decodeProperties`, `src/fgb/feature.ts`)

The properties vector is a packed stream of `[u16 LE columnIndex][value]`
pairs.  Values whose numeric content the pipeline computes with are decoded
exactly (`Int`); `f32`/`f64` values are carried as their little-endian bit
patterns; strings and binaries as their payload byte lists.  A `DataView`
read past the end of the vector (the fixed-width cases, which the source
does not guard) throws `RangeError`, modelled as `Except.error`; the
variable-length cases carry their own bounds checks and return `null` with
`bytesRead = 0`.  The JS `Map` is modelled as the list of insertions, in
order. -/

/-- A decoded FGB property value (`PropertyValue` of `src/types.ts`). -/
inductive PropertyValue where
  /-- JS `null` (unsupported type or failed variable-length read). -/
  | pvNull
  /-- A boolean column value. -/
  | pvBool (b : Bool)
  /-- Any integral number (signed or unsigned, up to 64-bit). -/
  | pvNum (v : Int)
  /-- A `Float` column value, as its 32-bit LE bit pattern. -/
  | pvFloatBits (bits : Nat)
  /-- A `Double` column value, as its 64-bit LE bit pattern. -/
  | pvDoubleBits (bits : Nat)
  /-- A `String`/`Json`/`DateTime` value: the UTF-8 payload bytes. -/
  | pvStr (bytes : List Nat)
  /-- A `Binary` value: the raw payload bytes. -/
  | pvBin (bytes : List Nat)
  deriving DecidableEq, Repr

/-- Column schema entry (`ColumnMeta` of `src/types.ts`); the type is the
raw `u8` read from the header, which may lie outside the enum. -/
structure ColumnMeta where
  name : String
  type : Nat
  nullable : Bool
  deriving DecidableEq, Repr

/-- Little-endian value of a byte list (first byte least significant). -/
def leVal (bs : List Nat) : Nat :=
  bs.foldr (fun b acc => b + 256 * acc) 0

/-- Bounds-checked little-endian unsigned read of `n` bytes — a `DataView`
`getUint*` call, which throws `RangeError` when crossing the view's end. -/
def readUIntLE (bytes : List Nat) (off n : Nat) : Except String Nat :=
  if off + n ≤ bytes.length then .ok (leVal ((bytes.drop off).take n))
  else .error "RangeError: view read out of bounds"

/-- Reinterpret an unsigned `bits`-wide value as two's-complement signed. -/
def toSigned (bits : Nat) (v : Nat) : Int :=
  if v < 2 ^ (bits - 1) then (v : Int) else (v : Int) - 2 ^ bits

/-- `readPropertyValue` from `src/fgb/feature.ts`: decode one value at
`offset` according to the column type, returning the value and the number
of bytes consumed.  Fixed-width reads are unguarded `DataView` accesses;
`String`/`Json`/`DateTime`/`Binary` check bounds themselves and degrade to
`(null, 0)`; unknown types return `(null, 0)` without reading. -/
def readPropertyValue (bytes : List Nat) (offset : Nat) (type : Nat) :
    Except String (PropertyValue × Nat) :=
  if type = 2 then do  -- Bool
    let v ← readUIntLE bytes offset 1
    pure (.pvBool (v ≠ 0), 1)
  else if type = 0 then do  -- Byte (i8)
    let v ← readUIntLE bytes offset 1
    pure (.pvNum (toSigned 8 v), 1)
  else if type = 1 then do  -- UByte
    let v ← readUIntLE bytes offset 1
    pure (.pvNum v, 1)
  else if type = 3 then do  -- Short (i16 LE)
    let v ← readUIntLE bytes offset 2
    pure (.pvNum (toSigned 16 v), 2)
  else if type = 4 then do  -- UShort
    let v ← readUIntLE bytes offset 2
    pure (.pvNum v, 2)
  else if type = 5 then do  -- Int (i32 LE)
    let v ← readUIntLE bytes offset 4
    pure (.pvNum (toSigned 32 v), 4)
  else if type = 6 then do  -- UInt
    let v ← readUIntLE bytes offset 4
    pure (.pvNum v, 4)
  else if type = 9 then do  -- Float (f32 bit pattern)
    let v ← readUIntLE bytes offset 4
    pure (.pvFloatBits v, 4)
  else if type = 7 then do  -- Long: u32 lo + i32 hi, hi * 2^32 + lo
    let lo ← readUIntLE bytes offset 4
    let hi ← readUIntLE bytes (offset + 4) 4
    pure (.pvNum (toSigned 32 hi * 2 ^ 32 + lo), 8)
  else if type = 8 then do  -- ULong: u32 lo + u32 hi
    let lo ← readUIntLE bytes offset 4
    let hi ← readUIntLE bytes (offset + 4) 4
    pure (.pvNum (hi * 2 ^ 32 + lo), 8)
  else if type = 10 then do  -- Double (f64 bit pattern)
    let v ← readUIntLE bytes offset 8
    pure (.pvDoubleBits v, 8)
  else if type = 11 ∨ type = 12 ∨ type = 13 then  -- String / Json / DateTime
    if offset + 4 > bytes.length then .ok (.pvNull, 0)
    else
      let strLen := leVal ((bytes.drop offset).take 4)
      if offset + 4 + strLen > bytes.length then .ok (.pvNull, 0)
      else .ok (.pvStr ((bytes.drop (offset + 4)).take strLen), 4 + strLen)
  else if type = 14 then  -- Binary (guarded)
    if offset + 4 > bytes.length then .ok (.pvNull, 0)
    else
      let binLen := leVal ((bytes.drop offset).take 4)
      if offset + 4 + binLen > bytes.length then .ok (.pvNull, 0)
      else .ok (.pvBin ((bytes.drop (offset + 4)).take binLen), 4 + binLen)
  else .ok (.pvNull, 0)  -- default: unsupported column type

/-- The `while (offset < propsLen)` loop of `decodeProperties`: read a u16
column index (stopping silently when fewer than 2 bytes remain or the
index is out of schema range), decode the value, record the insertion, and
continue after the consumed bytes. -/
def decodePropsLoop (bytes : List Nat) (columns : List ColumnMeta) :
    Nat → Except String (List (String × PropertyValue))
  | offset =>
    if h1 : offset < bytes.length then
      if h2 : offset + 2 ≤ bytes.length then
        if h3 : leVal ((bytes.drop offset).take 2) < columns.length then
          match readPropertyValue bytes (offset + 2)
              (columns.getD (leVal ((bytes.drop offset).take 2)) ⟨"", 0, true⟩).type with
          | .error e => .error e
          | .ok (v, bytesRead) =>
            (decodePropsLoop bytes columns (offset + 2 + bytesRead)).map
              (((columns.getD (leVal ((bytes.drop offset).take 2)) ⟨"", 0, true⟩).name,
                v) :: ·)
        else .ok []
      else .ok []
    else .ok []
  termination_by offset => bytes.length - offset
  decreasing_by omega

/-- `decodeProperties` from `src/fgb/feature.ts`, over the raw bytes of the
properties vector: the list of `props.set(col.name, value)` insertions. -/
def decodeProperties (propsBytes : List Nat) (columns : List ColumnMeta) :
    Except String (List (String × PropertyValue)) :=
  decodePropsLoop propsBytes columns 0

/-- An out-of-enum column type reads nothing: `(null, 0)`. -/
theorem readPropertyValue_unsupported (bytes : List Nat) (off t : Nat)
    (ht : 15 ≤ t) : readPropertyValue bytes off t = .ok (.pvNull, 0) := by
  unfold readPropertyValue
  repeat rw [if_neg (by omega)]

/-- One successful step of the property loop: consume the column index and
`k` value bytes, record the insertion, continue. -/
theorem decodePropsLoop_step_ok (bytes : List Nat) (cols : List ColumnMeta)
    (offset : Nat) (v : PropertyValue) (k : Nat) (name : String) (t : Nat)
    (nb : Bool)
    (h1 : offset < bytes.length) (h2 : offset + 2 ≤ bytes.length)
    (h3 : leVal ((bytes.drop offset).take 2) < cols.length)
    (hcol : cols.getD (leVal ((bytes.drop offset).take 2)) ⟨"", 0, true⟩
      = ⟨name, t, nb⟩)
    (hread : readPropertyValue bytes (offset + 2) t = .ok (v, k)) :
    decodePropsLoop bytes cols offset
      = (decodePropsLoop bytes cols (offset + 2 + k)).map ((name, v) :: ·) := by
  rw [decodePropsLoop, dif_pos h1, dif_pos h2, dif_pos h3, hcol]
  dsimp only
  rw [hread]

/-- A failing value read aborts the property loop with the error. -/
theorem decodePropsLoop_step_err (bytes : List Nat) (cols : List ColumnMeta)
    (offset : Nat) (e : String) (name : String) (t : Nat) (nb : Bool)
    (h1 : offset < bytes.length) (h2 : offset + 2 ≤ bytes.length)
    (h3 : leVal ((bytes.drop offset).take 2) < cols.length)
    (hcol : cols.getD (leVal ((bytes.drop offset).take 2)) ⟨"", 0, true⟩
      = ⟨name, t, nb⟩)
    (hread : readPropertyValue bytes (offset + 2) t = .error e) :
    decodePropsLoop bytes cols offset = .error e := by
  rw [decodePropsLoop, dif_pos h1, dif_pos h2, dif_pos h3, hcol]
  dsimp only
  rw [hread]

/-- An out-of-schema column index silently ends the property loop. -/
theorem decodePropsLoop_break (bytes : List Nat) (cols : List ColumnMeta)
    (offset : Nat)
    (h1 : offset < bytes.length) (h2 : offset + 2 ≤ bytes.length)
    (h3 : cols.length ≤ leVal ((bytes.drop offset).take 2)) :
    decodePropsLoop bytes cols offset = .ok [] := by
  rw [decodePropsLoop, dif_pos h1, dif_pos h2, dif_neg (by omega)]

/-- Buffer exhaustion (fewer than 2 bytes left) ends the property loop. -/
theorem decodePropsLoop_exhausted (bytes : List Nat) (cols : List ColumnMeta)
    (offset : Nat) (h : bytes.length < offset + 2) :
    decodePropsLoop bytes cols offset = .ok [] := by
  rw [decodePropsLoop]
  by_cases h1 : offset < bytes.length
  · rw [dif_pos h1, dif_neg (by omega)]
  · rw [dif_neg h1]

/-- C3 (amended): while decoding a feature's property stream,
(1) a `columnIndex ≥ len(columns)` terminates parsing silently (no error,
no further entries);
(2) an out-of-enum column type records `null` for that column and parsing
**continues** with the next two bytes rather than stopping;
(3) a truncated variable-length value (`String`/`Json`/`DateTime`/`Binary`)
likewise records `null` and continues;
(4) a truncated fixed-width value (e.g. an `Int` column with fewer than 4
bytes left) raises an out-of-bounds error that aborts the feature. -/
theorem decodeProperties_termination_behavior :
    (∀ (bytes : List Nat) (cols : List ColumnMeta) (offset : Nat),
      offset < bytes.length → offset + 2 ≤ bytes.length →
      cols.length ≤ leVal ((bytes.drop offset).take 2) →
      decodePropsLoop bytes cols offset = .ok []) ∧
    (∀ (bytes : List Nat) (cols : List ColumnMeta) (offset : Nat),
      offset < bytes.length → offset + 2 ≤ bytes.length →
      leVal ((bytes.drop offset).take 2) < cols.length →
      15 ≤ (cols.getD (leVal ((bytes.drop offset).take 2)) ⟨"", 0, true⟩).type →
      decodePropsLoop bytes cols offset
        = (decodePropsLoop bytes cols (offset + 2)).map
            (((cols.getD (leVal ((bytes.drop offset).take 2)) ⟨"", 0, true⟩).name,
              PropertyValue.pvNull) :: ·)) ∧
    (∀ (bytes : List Nat) (cols : List ColumnMeta) (offset : Nat),
      offset < bytes.length → offset + 2 ≤ bytes.length →
      leVal ((bytes.drop offset).take 2) < cols.length →
      (cols.getD (leVal ((bytes.drop offset).take 2)) ⟨"", 0, true⟩).type = 11 →
      bytes.length < offset + 2 + 4 →
      decodePropsLoop bytes cols offset
        = (decodePropsLoop bytes cols (offset + 2)).map
            (((cols.getD (leVal ((bytes.drop offset).take 2)) ⟨"", 0, true⟩).name,
              PropertyValue.pvNull) :: ·)) ∧
    (∀ (bytes : List Nat) (cols : List ColumnMeta) (offset : Nat),
      offset < bytes.length → offset + 2 ≤ bytes.length →
      leVal ((bytes.drop offset).take 2) < cols.length →
      (cols.getD (leVal ((bytes.drop offset).take 2)) ⟨"", 0, true⟩).type = 5 →
      bytes.length < offset + 2 + 4 →
      ∃ e, decodePropsLoop bytes cols offset = .error e) := by
  refine ⟨fun bytes cols offset h1 h2 h3 =>
      decodePropsLoop_break bytes cols offset h1 h2 h3,
    fun bytes cols offset h1 h2 h3 ht => ?_,
    fun bytes cols offset h1 h2 h3 ht htr => ?_,
    fun bytes cols offset h1 h2 h3 ht htr => ?_⟩
  · have hstep := decodePropsLoop_step_ok bytes cols offset .pvNull 0
      (cols.getD (leVal ((bytes.drop offset).take 2)) ⟨"", 0, true⟩).name
      (cols.getD (leVal ((bytes.drop offset).take 2)) ⟨"", 0, true⟩).type
      (cols.getD (leVal ((bytes.drop offset).take 2)) ⟨"", 0, true⟩).nullable
      h1 h2 h3 rfl (readPropertyValue_unsupported bytes (offset + 2) _ ht)
    simpa using hstep
  · have hread : readPropertyValue bytes (offset + 2)
        (cols.getD (leVal ((bytes.drop offset).take 2)) ⟨"", 0, true⟩).type
        = .ok (.pvNull, 0) := by
      rw [ht]
      unfold readPropertyValue
      repeat rw [if_neg (by omega)]
      rw [if_pos (by omega), if_pos (by omega)]
    have hstep := decodePropsLoop_step_ok bytes cols offset .pvNull 0
      (cols.getD (leVal ((bytes.drop offset).take 2)) ⟨"", 0, true⟩).name
      (cols.getD (leVal ((bytes.drop offset).take 2)) ⟨"", 0, true⟩).type
      (cols.getD (leVal ((bytes.drop offset).take 2)) ⟨"", 0, true⟩).nullable
      h1 h2 h3 rfl hread
    simpa using hstep
  · have hread : readPropertyValue bytes (offset + 2)
        (cols.getD (leVal ((bytes.drop offset).take 2)) ⟨"", 0, true⟩).type
        = .error "RangeError: view read out of bounds" := by
      rw [ht]
      unfold readPropertyValue
      repeat rw [if_neg (by omega)]
      rw [if_pos rfl]
      unfold readUIntLE
      rw [if_neg (by omega)]
      rfl
    exact ⟨_, decodePropsLoop_step_err bytes cols offset _
      (cols.getD (leVal ((bytes.drop offset).take 2)) ⟨"", 0, true⟩).name
      (cols.getD (leVal ((bytes.drop offset).take 2)) ⟨"", 0, true⟩).type
      (cols.getD (leVal ((bytes.drop offset).take 2)) ⟨"", 0, true⟩).nullable
      h1 h2 h3 rfl hread⟩

/-- C3 (witness): the amended theorem at concrete inputs — an empty schema
with a stream `[0,0]` stops silently; an out-of-enum type 99 records null
and continues; a truncated `String` records null and continues; a
truncated `Int` errors. -/
theorem decodeProperties_termination_witness :
    decodePropsLoop [0, 0] [] 0 = .ok [] ∧
    decodePropsLoop [0, 0, 1, 0, 1] [⟨"a", 99, true⟩, ⟨"b", 2, true⟩] 0
      = (decodePropsLoop [0, 0, 1, 0, 1] [⟨"a", 99, true⟩, ⟨"b", 2, true⟩] 2).map
          (("a", PropertyValue.pvNull) :: ·) ∧
    decodePropsLoop [0, 0, 7] [⟨"s", 11, true⟩] 0
      = (decodePropsLoop [0, 0, 7] [⟨"s", 11, true⟩] 2).map
          (("s", PropertyValue.pvNull) :: ·) ∧
    ∃ e, decodePropsLoop [0, 0, 7] [⟨"a", 5, true⟩] 0 = .error e := by
  refine ⟨decodeProperties_termination_behavior.1 [0, 0] [] 0
      (by norm_num) (by norm_num) (by simp [leVal]),
    decodeProperties_termination_behavior.2.1 [0, 0, 1, 0, 1]
      [⟨"a", 99, true⟩, ⟨"b", 2, true⟩] 0
      (by norm_num) (by norm_num) (by simp [leVal]) (by simp [leVal]),
    decodeProperties_termination_behavior.2.2.1 [0, 0, 7] [⟨"s", 11, true⟩] 0
      (by norm_num) (by norm_num) (by simp [leVal]) (by simp [leVal]) (by norm_num),
    decodeProperties_termination_behavior.2.2.2 [0, 0, 7] [⟨"a", 5, true⟩] 0
      (by norm_num) (by norm_num) (by simp [leVal]) (by simp [leVal]) (by norm_num)⟩

/-- C3 (counterexample to the claim as stated): with schema
`[("a", type 99), ("b", Bool)]` and stream `[0,0, 1,0, 1]`, the unsupported
type at column 0 does **not** terminate parsing — the entry `("b", true)`
is still added afterwards; and with schema `[("a", Int)]` and the truncated
stream `[0,0, 1,2,3]`, decoding throws a `RangeError` instead of dropping
the remainder silently. -/
theorem decodeProperties_does_not_stop_silently :
    decodeProperties [0, 0, 1, 0, 1] [⟨"a", 99, true⟩, ⟨"b", 2, true⟩]
      = .ok [("a", .pvNull), ("b", .pvBool true)] ∧
    decodeProperties [0, 0, 1, 2, 3] [⟨"a", 5, true⟩]
      = .error "RangeError: view read out of bounds" := by
  constructor
  · have s0 := decodePropsLoop_step_ok [0, 0, 1, 0, 1]
      [⟨"a", 99, true⟩, ⟨"b", 2, true⟩] 0 .pvNull 0 "a" 99 true
      (by norm_num) (by norm_num) (by decide) (by decide) rfl
    have s1 := decodePropsLoop_step_ok [0, 0, 1, 0, 1]
      [⟨"a", 99, true⟩, ⟨"b", 2, true⟩] 2 (.pvBool true) 1 "b" 2 true
      (by norm_num) (by norm_num) (by decide) (by decide) rfl
    have s2 := decodePropsLoop_exhausted [0, 0, 1, 0, 1]
      [⟨"a", 99, true⟩, ⟨"b", 2, true⟩] 5 (by norm_num)
    unfold decodeProperties
    rw [s0]
    norm_num
    rw [s1]
    norm_num
    rw [s2]
    rfl
  · have s0 := decodePropsLoop_step_err [0, 0, 1, 2, 3] [⟨"a", 5, true⟩] 0
      "RangeError: view read out of bounds" "a" 5 true
      (by norm_num) (by norm_num) (by decide) (by decide) rfl
    unfold decodeProperties
    rw [s0]

/-! ## Winding correction (`src/geometry/transform.ts`)

Tile-space coordinates are 32-bit signed integers; the flat interleaved
`Int32Array` is modelled as a list of `(x, y)` pairs, and `ends` entries
(coordinate-pair counts, which the source doubles into element indices)
are used as pair counts directly.  `reverseRing`'s in-place pairwise swap
is list reversal of the ring slice. -/

/-- One term of the shoelace loop: `(x_i - x_{i-1}) * (y_i + y_{i-1})`. -/
def edgeTerm (prev p : Int × Int) : Int :=
  (p.1 - prev.1) * (p.2 + prev.2)

/-- Shoelace accumulation along a path, seeded with the previous vertex. -/
def pathSum : Int × Int → List (Int × Int) → Int
  | _, [] => 0
  | prev, p :: ps => edgeTerm prev p + pathSum p ps

/-- `signedArea` from `src/geometry/transform.ts`: the cyclic shoelace sum
`Σ (x_i - x_{i-1}) * (y_i + y_{i-1})` with `j` starting at the last vertex.
Positive = clockwise in Y-down tile space. -/
def signedArea (ring : List (Int × Int)) : Int :=
  match ring.getLast? with
  | none => 0
  | some L => pathSum L ring

/-- Shoelace sum of an open path (no wrap-around edge). -/
def openSum : List (Int × Int) → Int
  | [] => 0
  | [_] => 0
  | a :: b :: t => edgeTerm a b + openSum (b :: t)

/-- Reversing an edge negates its shoelace term. -/
theorem edgeTerm_antisymm (a b : Int × Int) : edgeTerm a b = -edgeTerm b a := by
  unfold edgeTerm
  ring

/-- A seeded path sum is the open sum with the seed prepended. -/
theorem pathSum_eq_openSum (p : Int × Int) (ps : List (Int × Int)) :
    pathSum p ps = openSum (p :: ps) := by
  induction ps generalizing p with
  | nil => simp [pathSum, openSum]
  | cons b t ih => simp only [pathSum, openSum, ih b]

/-- Appending a vertex extends an open sum by one edge from the last. -/
theorem openSum_append_single (s : List (Int × Int)) (x : Int × Int)
    (hs : s ≠ []) :
    openSum (s ++ [x]) = openSum s + edgeTerm (s.getLastD x) x := by
  induction s with
  | nil => exact absurd rfl hs
  | cons a t ih =>
    match t with
    | [] => simp [openSum, edgeTerm]
    | b :: t' =>
      have := ih (by simp)
      simp only [List.cons_append, List.append_eq, openSum] at this ⊢
      rw [this]
      have hlast : (a :: b :: t').getLastD x = (b :: t').getLastD x := by
        simp [List.getLastD]
      rw [hlast]
      ring

/-- Reversing an open path negates its shoelace sum. -/
theorem openSum_reverse (l : List (Int × Int)) :
    openSum l.reverse = -openSum l := by
  induction l with
  | nil => simp [openSum]
  | cons a t ih =>
    match t with
    | [] => simp [openSum]
    | b :: t' =>
      have hne : (b :: t').reverse ≠ [] := by simp
      rw [List.reverse_cons, openSum_append_single _ _ hne, ih]
      have hlast : ((b :: t').reverse).getLastD a = b := by
        rw [List.getLastD_eq_getLast?, List.getLast?_reverse]
        rfl
      rw [hlast]
      simp only [openSum]
      rw [edgeTerm_antisymm b a]
      ring

/-- Reversing a ring negates its shoelace sum. -/
theorem signedArea_reverse (l : List (Int × Int)) :
    signedArea l.reverse = -signedArea l := by
  match l with
  | [] => simp [signedArea]
  | h :: t =>
    have hlast : ∃ L, (h :: t).getLast? = some L := by
      cases hg : (h :: t).getLast? with
      | none => simp at hg
      | some L => exact ⟨L, rfl⟩
    obtain ⟨L, hL⟩ := hlast
    have hsa : signedArea (h :: t) = pathSum L (h :: t) := by
      unfold signedArea
      rw [hL]
    have hrevlast : (h :: t).reverse.getLast? = some h := by
      rw [List.getLast?_reverse]
      rfl
    have hsar : signedArea (h :: t).reverse = pathSum h (h :: t).reverse := by
      unfold signedArea
      rw [hrevlast]
    rw [hsa, hsar, pathSum_eq_openSum, pathSum_eq_openSum]
    have h1 : h :: (h :: t).reverse = ((h :: t) ++ [h]).reverse := by simp
    rw [h1, openSum_reverse, openSum_append_single _ _ (by simp)]
    have hgl : (h :: t).getLastD h = L := by
      rw [List.getLastD_eq_getLast?, hL]
      rfl
    rw [hgl]
    show -(openSum (h :: t) + edgeTerm L h) = -openSum (L :: h :: t)
    simp only [openSum]
    ring

/-- FGB geometry type codes used by the winding correction. -/
def gtPolygon : Nat := 3

/-- `GeomType.MultiPolygon` of `src/types.ts`. -/
def gtMultiPolygon : Nat := 6

/-- `ensureWinding` from `src/geometry/transform.ts`: reverse the ring
slice `[start, endP)` (pair indices) in place when its current orientation
`signedArea > 0` does not match the requested `clockwise`. -/
def ensureWinding (coords : List (Int × Int)) (start endP : Nat)
    (clockwise : Bool) : List (Int × Int) :=
  let ring := (coords.drop start).take (endP - start)
  if decide (0 < signedArea ring) ≠ clockwise then
    coords.take start ++ ring.reverse ++ coords.drop (start + ring.length)
  else coords

/-- The per-ring loop of `correctWinding`: walk `ends` with the running
ring start, requesting clockwise for exterior rings (ring indices listed in
`ext`) and counter-clockwise otherwise. -/
def windRings (ext : List Nat) : List (Int × Int) → Nat → Nat → List Nat →
    List (Int × Int)
  | coords, _, _, [] => coords
  | coords, i, start, e :: es =>
    windRings ext (ensureWinding coords start e (decide (i ∈ ext))) (i + 1) e es

/-- The exterior-ring index set: `parts` when present, else ring 0. -/
def exteriorList (parts : Option (List Nat)) : List Nat :=
  match parts with
  | some ps => ps
  | none => [0]

/-- `correctWinding` from `src/geometry/transform.ts`: no-op for
non-polygon types; a single ring (no `ends` or at most one entry) is made
clockwise; otherwise each ring is wound according to the exterior set. -/
def correctWinding (coords : List (Int × Int)) (ends : Option (List Nat))
    (geomType : Nat) (parts : Option (List Nat)) : List (Int × Int) :=
  if geomType ≠ gtPolygon ∧ geomType ≠ gtMultiPolygon then coords
  else
    match ends with
    | none => ensureWinding coords 0 coords.length true
    | some es =>
      if es.length ≤ 1 then ensureWinding coords 0 coords.length true
      else windRings (exteriorList parts) coords 0 0 es

/-- Dropping exactly the first summand of an append. -/
theorem drop_append_len {α : Type} (n : Nat) (l₁ l₂ : List α)
    (h : l₁.length = n) : (l₁ ++ l₂).drop n = l₂ := by
  subst h
  simp

/-- Taking exactly the first summand of an append. -/
theorem take_append_len {α : Type} (n : Nat) (l₁ l₂ : List α)
    (h : l₁.length = n) : (l₁ ++ l₂).take n = l₁ := by
  subst h
  simp

/-- `ensureWinding` affects only the ring slice: length, the prefix before
`start`, and the suffix from `endP` are preserved, and the resulting ring
slice has the requested orientation (weakly: a degenerate ring keeps
shoelace sum 0). -/
theorem ensureWinding_spec (coords : List (Int × Int)) (start endP : Nat)
    (cw : Bool) (hse : start ≤ endP) (hlen : endP ≤ coords.length) :
    (ensureWinding coords start endP cw).length = coords.length ∧
    (ensureWinding coords start endP cw).take start = coords.take start ∧
    (ensureWinding coords start endP cw).drop endP = coords.drop endP ∧
    (cw = true →
      0 ≤ signedArea (((ensureWinding coords start endP cw).drop start).take
        (endP - start))) ∧
    (cw = false →
      signedArea (((ensureWinding coords start endP cw).drop start).take
        (endP - start)) ≤ 0) := by
  unfold ensureWinding
  set ring := (coords.drop start).take (endP - start) with hring
  have hrlen : ring.length = endP - start := by
    rw [hring, List.length_take, List.length_drop]
    omega
  have htlen : (coords.take start).length = start := by
    rw [List.length_take]
    omega
  by_cases hc : decide (0 < signedArea ring) ≠ cw
  · rw [if_pos hc]
    have hdrop : (coords.take start ++ ring.reverse
        ++ coords.drop (start + ring.length)).drop start
        = ring.reverse ++ coords.drop (start + ring.length) := by
      rw [List.append_assoc]
      exact drop_append_len start _ _ htlen
    have hslice : ((coords.take start ++ ring.reverse
        ++ coords.drop (start + ring.length)).drop start).take (endP - start)
        = ring.reverse := by
      rw [hdrop]
      exact take_append_len _ _ _ (by rw [List.length_reverse, hrlen])
    refine ⟨?_, ?_, ?_, ?_, ?_⟩
    · simp only [List.length_append, List.length_reverse, List.length_drop,
        htlen, hrlen]
      omega
    · rw [List.append_assoc]
      exact take_append_len start _ _ htlen
    · have hde : (coords.take start ++ ring.reverse).length = endP := by
        simp only [List.length_append, List.length_reverse, htlen, hrlen]
        omega
      have := drop_append_len endP (coords.take start ++ ring.reverse)
        (coords.drop (start + ring.length)) hde
      rw [List.append_assoc] at this ⊢
      rw [← List.append_assoc] at this
      rw [← List.append_assoc, this]
      congr 1
      omega
    · intro hcw
      rw [hslice, signedArea_reverse]
      rw [hcw] at hc
      simp only [ne_eq, decide_eq_true_eq] at hc
      omega
    · intro hcw
      rw [hslice, signedArea_reverse]
      rw [hcw] at hc
      have hdec : decide (0 < signedArea ring) = true := by
        revert hc
        cases decide (0 < signedArea ring) <;> simp
      have := of_decide_eq_true hdec
      omega
  · rw [if_neg hc]
    simp only [ne_eq, not_not] at hc
    refine ⟨rfl, rfl, rfl, ?_, ?_⟩
    · intro hcw
      rw [hcw] at hc
      have : 0 < signedArea ring := of_decide_eq_true hc
      rw [← hring]
      omega
    · intro hcw
      rw [hcw] at hc
      have : ¬(0 < signedArea ring) := of_decide_eq_false hc
      rw [← hring]
      omega

/-- Walking the ring loop: length is preserved, the prefix before the
running start is untouched, and every processed ring ends with the
orientation its exterior/interior designation requests (weakly). -/
theorem windRings_spec (ext : List Nat) :
    ∀ (es : List Nat) (coords : List (Int × Int)) (i start : Nat),
      List.Chain' (· ≤ ·) (start :: es) → (∀ e ∈ es, e ≤ coords.length) →
      (windRings ext coords i start es).length = coords.length ∧
      (windRings ext coords i start es).take start = coords.take start ∧
      (∀ j, j < es.length →
        ((i + j ∈ ext) → 0 ≤ signedArea (((windRings ext coords i start es).drop
            (if j = 0 then start else es.getD (j - 1) 0)).take
            (es.getD j 0 - (if j = 0 then start else es.getD (j - 1) 0)))) ∧
        ((i + j ∉ ext) → signedArea (((windRings ext coords i start es).drop
            (if j = 0 then start else es.getD (j - 1) 0)).take
            (es.getD j 0 - (if j = 0 then start else es.getD (j - 1) 0))) ≤ 0)) := by
  intro es
  induction es with
  | nil =>
    intro coords i start _ _
    exact ⟨rfl, rfl, fun j hj => absurd hj (by simp)⟩
  | cons e es' ih =>
    intro coords i start hchain hbound
    have hse : start ≤ e := (List.chain'_cons.mp hchain).1
    have hchain' : List.Chain' (· ≤ ·) (e :: es') := (List.chain'_cons.mp hchain).2
    have he : e ≤ coords.length := hbound e (List.mem_cons_self _ _)
    have hspec := ensureWinding_spec coords start e (decide (i ∈ ext)) hse he
    have hbound' : ∀ x ∈ es', x ≤ (ensureWinding coords start e
        (decide (i ∈ ext))).length := by
      intro x hx
      rw [hspec.1]
      exact hbound x (List.mem_cons_of_mem _ hx)
    have hrec := ih (ensureWinding coords start e (decide (i ∈ ext))) (i + 1) e
      hchain' hbound'
    rw [show windRings ext coords i start (e :: es')
      = windRings ext (ensureWinding coords start e (decide (i ∈ ext)))
        (i + 1) e es' from rfl]
    refine ⟨by rw [hrec.1, hspec.1], ?_, ?_⟩
    · have h1 : (windRings ext (ensureWinding coords start e (decide (i ∈ ext)))
          (i + 1) e es').take start
          = ((windRings ext (ensureWinding coords start e (decide (i ∈ ext)))
            (i + 1) e es').take e).take start := by
        rw [List.take_take, min_eq_left hse]
      rw [h1, hrec.2.1, List.take_take, min_eq_left hse, hspec.2.1]
    · intro j hj
      match j with
      | 0 =>
        constructor
        · intro hmem
          show 0 ≤ signedArea (((windRings ext (ensureWinding coords start e
            (decide (i ∈ ext))) (i + 1) e es').drop start).take (e - start))
          rw [← List.drop_take, hrec.2.1, List.drop_take]
          exact hspec.2.2.2.1 (decide_eq_true (by simpa using hmem))
        · intro hmem
          show signedArea (((windRings ext (ensureWinding coords start e
            (decide (i ∈ ext))) (i + 1) e es').drop start).take (e - start)) ≤ 0
          rw [← List.drop_take, hrec.2.1, List.drop_take]
          exact hspec.2.2.2.2 (decide_eq_false (by simpa using hmem))
      | j' + 1 =>
        have hj' : j' < es'.length := by simpa using hj
        have hr := hrec.2.2 j' hj'
        have hidx : i + 1 + j' = i + (j' + 1) := by omega
        have hgd1 : (e :: es').getD (j' + 1 - 1) 0
            = (if j' = 0 then e else es'.getD (j' - 1) 0) := by
          match j' with
          | 0 => rfl
          | k + 1 => simp [List.getD]
        have hgd2 : (e :: es').getD (j' + 1) 0 = es'.getD j' 0 := rfl
        rw [if_neg (by omega), hgd1, hgd2]
        rw [hidx] at hr
        exact hr

/-- C5 (amended): after `correctWinding` runs on a Polygon or MultiPolygon
feature in tile-integer coordinates, every ring designated exterior
(ring 0 when `parts` is absent; every index listed in `parts` otherwise)
has a **non-negative** shoelace sum and every other ring a **non-positive**
one; strict signs cannot be guaranteed, because a degenerate ring's
shoelace sum is 0 and reversal keeps it 0.  (Rings are the slices delimited
by the cumulative `ends` pair counts; the single-ring case — `ends` absent
— is exterior.) -/
theorem correctWinding_ring_orientation :
    (∀ (coords : List (Int × Int)) (es : List Nat) (parts : Option (List Nat))
      (gt : Nat),
      (gt = gtPolygon ∨ gt = gtMultiPolygon) → 2 ≤ es.length →
      List.Chain' (· ≤ ·) (0 :: es) → (∀ e ∈ es, e ≤ coords.length) →
      ∀ j, j < es.length →
        ((j ∈ exteriorList parts) →
          0 ≤ signedArea (((correctWinding coords (some es) gt parts).drop
            (if j = 0 then 0 else es.getD (j - 1) 0)).take
            (es.getD j 0 - (if j = 0 then 0 else es.getD (j - 1) 0)))) ∧
        ((j ∉ exteriorList parts) →
          signedArea (((correctWinding coords (some es) gt parts).drop
            (if j = 0 then 0 else es.getD (j - 1) 0)).take
            (es.getD j 0 - (if j = 0 then 0 else es.getD (j - 1) 0))) ≤ 0)) ∧
    (∀ (coords : List (Int × Int)) (parts : Option (List Nat)) (gt : Nat),
      (gt = gtPolygon ∨ gt = gtMultiPolygon) →
      0 ≤ signedArea (correctWinding coords none gt parts)) := by
  constructor
  · intro coords es parts gt hgt hlen hchain hbound j hj
    have hnot : ¬(gt ≠ gtPolygon ∧ gt ≠ gtMultiPolygon) := by
      rcases hgt with rfl | rfl
      · exact fun h => h.1 rfl
      · exact fun h => h.2 rfl
    have hcw : correctWinding coords (some es) gt parts
        = windRings (exteriorList parts) coords 0 0 es := by
      unfold correctWinding
      rw [if_neg hnot]
      simp only
      rw [if_neg (by omega)]
    rw [hcw]
    have hspec := (windRings_spec (exteriorList parts) es coords 0 0 hchain
      hbound).2.2 j hj
    simpa using hspec
  · intro coords parts gt hgt
    have hnot : ¬(gt ≠ gtPolygon ∧ gt ≠ gtMultiPolygon) := by
      rcases hgt with rfl | rfl
      · exact fun h => h.1 rfl
      · exact fun h => h.2 rfl
    have hcw : correctWinding coords none gt parts
        = ensureWinding coords 0 coords.length true := by
      unfold correctWinding
      rw [if_neg hnot]
    rw [hcw]
    have hspec := ensureWinding_spec coords 0 coords.length true
      (Nat.zero_le _) (le_refl _)
    have := hspec.2.2.2.1 rfl
    rw [List.drop_zero, Nat.sub_zero] at this
    have hfull : (ensureWinding coords 0 coords.length true).take coords.length
        = ensureWinding coords 0 coords.length true :=
      List.take_of_length_le (le_of_eq hspec.1)
    rwa [hfull] at this

/-- C5 (witness): a polygon with an exterior square ring and a triangular
hole (`ends = [4, 7]`): after correction the exterior slice has
non-negative and the hole slice non-positive shoelace sum. -/
theorem correctWinding_ring_orientation_witness :
    ((0 : Nat) ∈ exteriorList none →
      0 ≤ signedArea (((correctWinding
        [(0, 0), (0, 10), (10, 10), (10, 0), (2, 2), (2, 4), (4, 2)]
        (some [4, 7]) gtPolygon none).drop 0).take 4)) ∧
    ((1 : Nat) ∉ exteriorList none →
      signedArea (((correctWinding
        [(0, 0), (0, 10), (10, 10), (10, 0), (2, 2), (2, 4), (4, 2)]
        (some [4, 7]) gtPolygon none).drop 4).take 3) ≤ 0) := by
  have h0 := (correctWinding_ring_orientation.1
    [(0, 0), (0, 10), (10, 10), (10, 0), (2, 2), (2, 4), (4, 2)]
    [4, 7] none gtPolygon (Or.inl rfl) (by norm_num)
    (by simp [List.chain'_cons]) (by decide) 0 (by norm_num))
  have h1 := (correctWinding_ring_orientation.1
    [(0, 0), (0, 10), (10, 10), (10, 0), (2, 2), (2, 4), (4, 2)]
    [4, 7] none gtPolygon (Or.inl rfl) (by norm_num)
    (by simp [List.chain'_cons]) (by decide) 1 (by norm_num))
  exact ⟨by simpa using h0.1, by simpa using h1.2⟩

/-- C5 (counterexample to the claim as stated): a degenerate collinear
Polygon ring `[(0,0),(1,1),(2,2)]` (designated exterior) still has
shoelace sum 0 — not strictly positive — after `correctWinding`. -/
theorem correctWinding_not_strictly_positive :
    ¬(0 < signedArea (correctWinding [(0, 0), (1, 1), (2, 2)] none
      gtPolygon none)) := by
  decide

/-! ## MVT polygon command encoding (`src/mvt/geometry.ts`)

Tile coordinates are `Int32Array` entries, modelled as `(Int × Int)` pairs
(out-of-range reads default to `(0,0)`; the claims only exercise in-bounds
accesses).  JS 32-bit operator semantics are explicit: `ToInt32` reduction,
`n >> 31` as the sign (`-1`/`0`), and `^`/`&`/`|` as `Int.xor`/`Int.land`/
`Int.lor` on 32-bit values. -/

/-- ECMAScript `ToInt32`: reduce modulo `2^32` into `[-2^31, 2^31)`. -/
def toInt32 (n : Int) : Int :=
  let u := n.emod (2 ^ 32)
  if u < 2 ^ 31 then u else u - 2 ^ 32

/-- `zigzag` from `src/mvt/geometry.ts`: `(n << 1) ^ (n >> 31)`.  The left
shift is 32-bit (`toInt32 (2 * toInt32 n)`); `n >> 31` is `-1` for negative
32-bit values and `0` otherwise. -/
def zigzag (n : Int) : Int :=
  Int.xor (toInt32 (2 * toInt32 n)) (if toInt32 n < 0 then -1 else 0)

/-- `commandInt` from `src/mvt/geometry.ts`: `(id & 0x7) | (count << 3)`. -/
def commandInt (id count : Int) : Int :=
  Int.lor (Int.land (toInt32 id) 7) (toInt32 (8 * toInt32 count))

/-- The ring-bounds loop of `getRingBounds`: push `[start, end)` when
`end > start`, and always advance `start := end`. -/
def ringBoundsGo : Nat → List Nat → List (Nat × Nat)
  | _, [] => []
  | start, e :: es =>
    if start < e then (start, e) :: ringBoundsGo e es else ringBoundsGo e es

/-- `getRingBounds` from `src/mvt/geometry.ts`: ring/part boundaries as
`[startPair, endPair)` tuples; `null`/empty `ends` means one ring spanning
everything. -/
def getRingBounds (totalPairs : Nat) (ends : Option (List Nat)) :
    List (Nat × Nat) :=
  match ends with
  | none => [(0, totalPairs)]
  | some es => if es = [] then [(0, totalPairs)] else ringBoundsGo 0 es

/-- The `LineTo` inner loop shared by the polygon encoder: emit the zigzag
delta pair for each index, advancing the cursor to each emitted vertex. -/
def polyLineTo (coords : List (Int × Int)) :
    List Nat → Int → Int → List Int × Int × Int
  | [], cx, cy => ([], cx, cy)
  | i :: is, cx, cy =>
    let p := coords.getD i (0, 0)
    let r := polyLineTo coords is p.1 p.2
    (zigzag (p.1 - cx) :: zigzag (p.2 - cy) :: r.1, r.2)

/-- The per-ring loop of `encodePolygons`: skip rings with fewer than 3
pairs; detect explicit closure (`last = first`) and set
`lineCount = numPairs - 2` (closed) or `numPairs - 1`; skip when
`lineCount < 2`; otherwise emit `MoveTo(1)`, delta, `LineTo(lineCount)`,
the interior deltas up to `lineEnd`, and `ClosePath(1)`; the cursor
persists across rings, unchanged by skipped rings and by `ClosePath`. -/
def polyGo (coords : List (Int × Int)) :
    List (Nat × Nat) → Int → Int → List Int
  | [], _, _ => []
  | (s, e) :: rings, cx, cy =>
    let numPairs := e - s
    if numPairs < 3 then polyGo coords rings cx cy
    else
      let p0 := coords.getD s (0, 0)
      let isClosed := p0 = coords.getD (e - 1) (0, 0)
      let lineCount := if isClosed then numPairs - 2 else numPairs - 1
      if lineCount < 2 then polyGo coords rings cx cy
      else
        let lineEnd := if isClosed then e - 1 else e
        let d := polyLineTo coords (List.range' (s + 1) (lineEnd - (s + 1)))
          p0.1 p0.2
        commandInt 1 1 :: zigzag (p0.1 - cx) :: zigzag (p0.2 - cy) ::
          commandInt 2 lineCount :: (d.1 ++ commandInt 7 1 ::
            polyGo coords rings d.2.1 d.2.2)

/-- `encodePolygons` from `src/mvt/geometry.ts`. -/
def encodePolygons (coords : List (Int × Int)) (ends : Option (List Nat)) :
    List Int :=
  polyGo coords (getRingBounds coords.length ends) 0 0

/-- The polygon command stream as the specification words it (modelled from
the spec sentence for comparison with `encodePolygons`): for each ring with
at least 3 *effective* vertices (`n` minus the redundant closing vertex),
emit `MoveTo(1)` + first zigzag delta, `LineTo(k)` with `k = n - 2` when
the ring is explicitly closed and `k = n - 1` otherwise, then
`ClosePath(1)`; rings with fewer than 2 interior edges are dropped; deltas
run against one cursor from `(0,0)` across all rings. -/
def specPolyGo (coords : List (Int × Int)) :
    List (Nat × Nat) → Int → Int → List Int
  | [], _, _ => []
  | (s, e) :: rings, cx, cy =>
    let n := e - s
    let closed := coords.getD s (0, 0) = coords.getD (e - 1) (0, 0)
    let effective := if closed then n - 1 else n
    if effective < 3 then specPolyGo coords rings cx cy
    else
      let k := if closed then n - 2 else n - 1
      let p0 := coords.getD s (0, 0)
      let d := polyLineTo coords (List.range' (s + 1) k) p0.1 p0.2
      commandInt 1 1 :: zigzag (p0.1 - cx) :: zigzag (p0.2 - cy) ::
        commandInt 2 k :: (d.1 ++ commandInt 7 1 ::
          specPolyGo coords rings d.2.1 d.2.2)

/-- Spec-worded polygon encoding over the same ring bounds. -/
def specEncodePolygons (coords : List (Int × Int)) (ends : Option (List Nat)) :
    List Int :=
  specPolyGo coords (getRingBounds coords.length ends) 0 0

/-- The ring loop and its spec-worded counterpart agree on every input. -/
theorem polyGo_eq_specPolyGo (coords : List (Int × Int)) :
    ∀ (rings : List (Nat × Nat)) (cx cy : Int),
      polyGo coords rings cx cy = specPolyGo coords rings cx cy := by
  intro rings
  induction rings with
  | nil => intro cx cy; rfl
  | cons r rings ih =>
    intro cx cy
    obtain ⟨s, e⟩ := r
    show polyGo coords ((s, e) :: rings) cx cy
      = specPolyGo coords ((s, e) :: rings) cx cy
    unfold polyGo specPolyGo
    by_cases hclosed : coords.getD s (0, 0) = coords.getD (e - 1) (0, 0)
    · simp only [hclosed, if_pos rfl, if_true, eq_self_iff_true]
      by_cases hsmall : e - s - 1 < 3
      · rw [if_pos hsmall]
        by_cases h3 : e - s < 3
        · rw [if_pos h3]
          exact ih cx cy
        · rw [if_neg h3, if_pos (by omega)]
          exact ih cx cy
      · rw [if_neg hsmall, if_neg (by omega), if_neg (by omega)]
        have hk : (if (true : Bool) = true then e - s - 2 else e - s - 1)
            = e - s - 2 := rfl
        have hle : e - 1 - (s + 1) = e - s - 2 := by omega
        rw [ih, hle]
    · have hcl : (coords.getD s (0, 0) = coords.getD (e - 1) (0, 0)) = False :=
        eq_false hclosed
      simp only [hcl, if_false]
      by_cases hsmall : e - s < 3
      · rw [if_pos hsmall, if_pos hsmall]
        exact ih cx cy
      · rw [if_neg hsmall, if_neg hsmall, if_neg (by omega)]
        have hle : e - (s + 1) = e - s - 1 := by omega
        rw [ih, hle]

/-- C4: polygon command encoding emits, per ring with at least 3 effective
vertices, `MoveTo(1)` + first zigzag delta, `LineTo(k)` with `k = n-2` for
explicitly closed rings and `k = n-1` otherwise, then `ClosePath(1)`;
rings with fewer than 2 interior edges are dropped; the delta cursor starts
at `(0,0)` and persists across rings.  In particular the closed triangle
`[(0,0),(10,0),(10,10),(0,0)]` with `ends = [4]` encodes to exactly
`[9, 0, 0, 18, 20, 0, 0, 20, 15]`. -/
theorem encodePolygons_spec_and_triangle :
    (∀ (coords : List (Int × Int)) (ends : Option (List Nat)),
      encodePolygons coords ends = specEncodePolygons coords ends) ∧
    encodePolygons [(0, 0), (10, 0), (10, 10), (0, 0)] (some [4])
      = [9, 0, 0, 18, 20, 0, 0, 20, 15] := by
  constructor
  · intro coords ends
    unfold encodePolygons specEncodePolygons
    exact polyGo_eq_specPolyGo coords _ 0 0
  · decide

/-! ## Douglas-Peucker simplification (`src/geometry/simplify.ts`)

Coordinates are f64 pairs, modelled as `Rat × Rat`; `Infinity` (the
endpoint importance) is `⊤` in `WithTop Rat`.  The claims are settled at
inputs whose double arithmetic is exact (dyadic values, divisions by
powers of two only), where the `Rat` model and IEEE-754 evaluation agree
operation for operation.  The recursive `dpMark` is modelled with fuel
`last - first`, which `dpMarkF_fuel_irrelevant` proves sufficient. -/

/-- `sqSegDist` from `src/geometry/simplify.ts`: squared distance from
`(px, py)` to the segment `(ax, ay)-(bx2, by2)`; the projection parameter
is clamped to `[0, 1]`, and a degenerate segment falls back to the start
point. -/
def sqSegDist (px py ax ay bx2 by2 : Rat) : Rat :=
  let dx := bx2 - ax
  let dy := by2 - ay
  let c : Rat × Rat :=
    if dx ≠ 0 ∨ dy ≠ 0 then
      let t := ((px - ax) * dx + (py - ay) * dy) / (dx * dx + dy * dy)
      if t > 1 then (bx2, by2)
      else if t > 0 then (ax + dx * t, ay + dy * t)
      else (ax, ay)
    else (ax, ay)
  (px - c.1) * (px - c.1) + (py - c.2) * (py - c.2)

/-- The scan of `dpMark`'s `for` loop: track the maximum squared distance,
its index (`none` = the JS sentinel `-1`), and the tie-break distance to
the range midpoint.  Note the source updates `minPosToMid` only in the
tie branch, never when a strictly larger distance wins. -/
def dpScan (xy : List (Rat × Rat)) (ax ay bx2 by2 : Rat) (mid : Nat) :
    List Nat → Rat × Option Nat × Nat → Rat × Option Nat × Nat
  | [], st => st
  | i :: is, (maxSq, idx, minPos) =>
    let p := xy.getD i (0, 0)
    let d := sqSegDist p.1 p.2 ax ay bx2 by2
    if d > maxSq then dpScan xy ax ay bx2 by2 mid is (d, some i, minPos)
    else if d = maxSq then
      let posToMid := ((i : Int) - (mid : Int)).natAbs
      if posToMid < minPos then
        dpScan xy ax ay bx2 by2 mid is (maxSq, some i, posToMid)
      else dpScan xy ax ay bx2 by2 mid is (maxSq, idx, minPos)
    else dpScan xy ax ay bx2 by2 mid is (maxSq, idx, minPos)

/-- `dpMark` from `src/geometry/simplify.ts`, fueled: find the interior
point of `[first, last]` with the maximum squared distance to the baseline,
record it as that point's importance, and recurse on both sides (only when
the sub-range has interior points). -/
def dpMarkF (xy : List (Rat × Rat)) :
    Nat → Nat → Nat → List (WithTop Rat) → List (WithTop Rat)
  | 0, _, _, imp => imp
  | fuel + 1, first, last, imp =>
    let a := xy.getD first (0, 0)
    let b := xy.getD last (0, 0)
    let mid := (first + last) / 2
    let st := dpScan xy a.1 a.2 b.1 b.2 mid
      (List.range' (first + 1) (last - (first + 1))) (0, none, last - first)
    match st.2.1 with
    | none => imp
    | some k =>
      if 0 < st.1 then
        let imp1 := imp.set k (st.1 : WithTop Rat)
        let imp2 := if 1 < k - first then dpMarkF xy fuel first k imp1 else imp1
        if 1 < last - k then dpMarkF xy fuel k last imp2 else imp2
      else imp

/-- `dpMark` with the provably sufficient fuel `last - first`. -/
def dpMark (xy : List (Rat × Rat)) (first last : Nat)
    (imp : List (WithTop Rat)) : List (WithTop Rat) :=
  dpMarkF xy (last - first) first last imp

/-- The filter loop of `simplify`: keep the points whose importance
strictly exceeds the squared tolerance. -/
def filterImpGo (xy : List (Rat × Rat)) (imp : List (WithTop Rat))
    (sqTol : Rat) : List Nat → List (Rat × Rat)
  | [] => []
  | i :: is =>
    if (sqTol : WithTop Rat) < imp.getD i 0 then
      xy.getD i (0, 0) :: filterImpGo xy imp sqTol is
    else filterImpGo xy imp sqTol is

/-- `simplify` from `src/geometry/simplify.ts`: mark importances over the
whole range (endpoints at `Infinity`), then keep points with importance
above the squared tolerance.  Inputs with at most 2 points are returned
unchanged. -/
def simplify (xy : List (Rat × Rat)) (sqTolerance : Rat) : List (Rat × Rat) :=
  if xy.length ≤ 2 then xy
  else
    let imp0 : List (WithTop Rat) :=
      ((List.replicate xy.length (0 : WithTop Rat)).set 0 ⊤).set (xy.length - 1) ⊤
    let imp := dpMark xy 0 (xy.length - 1) imp0
    filterImpGo xy imp sqTolerance (List.range xy.length)

/-- The index the scan reports comes from its candidate list (or was
already set). -/
theorem dpScan_idx_mem (xy : List (Rat × Rat)) (ax ay bx2 by2 : Rat)
    (mid : Nat) :
    ∀ (l : List Nat) (st : Rat × Option Nat × Nat) (k : Nat),
      (dpScan xy ax ay bx2 by2 mid l st).2.1 = some k →
      st.2.1 = some k ∨ k ∈ l := by
  intro l
  induction l with
  | nil => intro st k h; exact Or.inl h
  | cons i is ih =>
    intro st k h
    obtain ⟨maxSq, idx, minPos⟩ := st
    unfold dpScan at h
    by_cases h1 : sqSegDist (xy.getD i (0, 0)).1 (xy.getD i (0, 0)).2 ax ay bx2 by2
        > maxSq
    · rw [if_pos h1] at h
      rcases ih _ k h with h2 | h2
      · simp only at h2
        exact Or.inr (by simp [Option.some_inj.mp h2])
      · exact Or.inr (List.mem_cons_of_mem _ h2)
    · rw [if_neg h1] at h
      by_cases h2 : sqSegDist (xy.getD i (0, 0)).1 (xy.getD i (0, 0)).2 ax ay bx2 by2
          = maxSq
      · rw [if_pos h2] at h
        by_cases h3 : (((i : Int) - (mid : Int)).natAbs) < minPos
        · rw [if_pos h3] at h
          rcases ih _ k h with h4 | h4
          · simp only at h4
            exact Or.inr (by simp [Option.some_inj.mp h4])
          · exact Or.inr (List.mem_cons_of_mem _ h4)
        · rw [if_neg h3] at h
          rcases ih _ k h with h4 | h4
          · exact Or.inl h4
          · exact Or.inr (List.mem_cons_of_mem _ h4)
      · rw [if_neg h2] at h
        rcases ih _ k h with h4 | h4
        · exact Or.inl h4
        · exact Or.inr (List.mem_cons_of_mem _ h4)

/-- Any fuel at least `last - first` gives the same marking, so the fueled
`dpMark` is a faithful model of the source's unbounded recursion. -/
theorem dpMarkF_fuel_irrelevant (xy : List (Rat × Rat)) :
    ∀ f1 f2 first last imp, last - first ≤ f1 → last - first ≤ f2 →
      dpMarkF xy f1 first last imp = dpMarkF xy f2 first last imp := by
  intro f1
  induction f1 with
  | zero =>
    intro f2 first last imp h1 _
    match f2 with
    | 0 => rfl
    | g + 1 =>
      show dpMarkF xy 0 first last imp = _
      unfold dpMarkF
      have hrange : last - (first + 1) = 0 := by omega
      rw [hrange]
      simp only [List.range'_zero]
      rfl
  | succ f ih =>
    intro f2 first last imp h1 h2
    match f2 with
    | 0 =>
      show _ = dpMarkF xy 0 first last imp
      unfold dpMarkF
      have hrange : last - (first + 1) = 0 := by omega
      rw [hrange]
      simp only [List.range'_zero]
      rfl
    | g + 1 =>
      show dpMarkF xy (f + 1) first last imp = dpMarkF xy (g + 1) first last imp
      unfold dpMarkF
      simp only
      cases hst : (dpScan xy (xy.getD first (0, 0)).1 (xy.getD first (0, 0)).2
          (xy.getD last (0, 0)).1 (xy.getD last (0, 0)).2 ((first + last) / 2)
          (List.range' (first + 1) (last - (first + 1)))
          (0, none, last - first)).2.1 with
      | none => rfl
      | some k =>
        have hkmem := dpScan_idx_mem xy (xy.getD first (0, 0)).1
          (xy.getD first (0, 0)).2 (xy.getD last (0, 0)).1 (xy.getD last (0, 0)).2
          ((first + last) / 2) (List.range' (first + 1) (last - (first + 1)))
          (0, none, last - first) k hst
        have hk : first + 1 ≤ k ∧ k < last := by
          rcases hkmem with h | h
          · simp at h
          · rw [List.mem_range'_1] at h
            omega
        dsimp only
        by_cases hpos : 0 < (dpScan xy (xy.getD first (0, 0)).1
            (xy.getD first (0, 0)).2 (xy.getD last (0, 0)).1
            (xy.getD last (0, 0)).2 ((first + last) / 2)
            (List.range' (first + 1) (last - (first + 1)))
            (0, none, last - first)).1
        · rw [if_pos hpos, if_pos hpos]
          have hX : (if 1 < k - first then
              dpMarkF xy f first k ((imp.set k ((dpScan xy (xy.getD first (0, 0)).1
                (xy.getD first (0, 0)).2 (xy.getD last (0, 0)).1
                (xy.getD last (0, 0)).2 ((first + last) / 2)
                (List.range' (first + 1) (last - (first + 1)))
                (0, none, last - first)).1 : WithTop Rat)))
              else (imp.set k ((dpScan xy (xy.getD first (0, 0)).1
                (xy.getD first (0, 0)).2 (xy.getD last (0, 0)).1
                (xy.getD last (0, 0)).2 ((first + last) / 2)
                (List.range' (first + 1) (last - (first + 1)))
                (0, none, last - first)).1 : WithTop Rat)))
              = (if 1 < k - first then
              dpMarkF xy g first k ((imp.set k ((dpScan xy (xy.getD first (0, 0)).1
                (xy.getD first (0, 0)).2 (xy.getD last (0, 0)).1
                (xy.getD last (0, 0)).2 ((first + last) / 2)
                (List.range' (first + 1) (last - (first + 1)))
                (0, none, last - first)).1 : WithTop Rat)))
              else (imp.set k ((dpScan xy (xy.getD first (0, 0)).1
                (xy.getD first (0, 0)).2 (xy.getD last (0, 0)).1
                (xy.getD last (0, 0)).2 ((first + last) / 2)
                (List.range' (first + 1) (last - (first + 1)))
                (0, none, last - first)).1 : WithTop Rat))) := by
            by_cases h4 : 1 < k - first
            · rw [if_pos h4, if_pos h4]
              exact ih g first k _ (by omega) (by omega)
            · rw [if_neg h4, if_neg h4]
          by_cases h5 : 1 < last - k
          · rw [if_pos h5, if_pos h5, hX]
            exact ih g k last _ (by omega) (by omega)
          · rw [if_neg h5, if_neg h5]
            exact hX
        · rw [if_neg hpos, if_neg hpos]

/-- The filter keeps fewer indices as the tolerance grows: every index
surviving the larger threshold also survives the smaller one. -/
theorem filterImpGo_length_antitone (xy : List (Rat × Rat))
    (imp : List (WithTop Rat)) (t tBig : Rat) (h : t ≤ tBig) :
    ∀ l : List Nat,
      (filterImpGo xy imp tBig l).length ≤ (filterImpGo xy imp t l).length := by
  intro l
  induction l with
  | nil => simp [filterImpGo]
  | cons i is ih =>
    unfold filterImpGo
    by_cases h1 : (tBig : WithTop Rat) < imp.getD i 0
    · have h2 : (t : WithTop Rat) < imp.getD i 0 :=
        lt_of_le_of_lt (WithTop.coe_le_coe.mpr h) h1
      rw [if_pos h1, if_pos h2]
      simpa using ih
    · rw [if_neg h1]
      by_cases h2 : (t : WithTop Rat) < imp.getD i 0
      · rw [if_pos h2]
        exact le_trans ih (by simp)
      · rw [if_neg h2]
        exact ih

/-- C7 (amended): `simplify` is monotone in the tolerance — raising the
squared tolerance never increases the number of surviving vertices, since
the importance marking is independent of the tolerance and the final
filter keeps an index precisely when its importance strictly exceeds the
threshold.  Idempotence, the other half of the original claim, fails
(see the counterexample). -/
theorem simplify_tolerance_monotone (xy : List (Rat × Rat)) (t tBig : Rat)
    (h : t ≤ tBig) :
    (simplify xy tBig).length ≤ (simplify xy t).length := by
  unfold simplify
  by_cases hlen : xy.length ≤ 2
  · rw [if_pos hlen, if_pos hlen]
  · rw [if_neg hlen, if_neg hlen]
    exact filterImpGo_length_antitone xy _ t tBig h _

/-- C7 (witness): the monotonicity theorem at a concrete five-point
polyline with squared tolerances 1 and 64. -/
theorem simplify_tolerance_monotone_witness :
    (1 : Rat) ≤ 64 ∧
      (simplify [((0 : Rat), (0 : Rat)), (4, 4), (8, 8), (2, 0), (16, 0)]
          64).length ≤
        (simplify [((0 : Rat), (0 : Rat)), (4, 4), (8, 8), (2, 0), (16, 0)]
          1).length :=
  ⟨by norm_num, simplify_tolerance_monotone _ 1 64 (by norm_num)⟩

/-- C7 (counterexample to the claim as stated): `simplify` is not
idempotent.  On the five-point polyline below with squared tolerance 64,
the first pass keeps `[(0,0), (2,0), (16,0)]` — `(2,0)` gets importance
98 from the baseline `(8,8)-(16,0)` of the right sub-range — but the
second pass sees `(2,0)` lying exactly on the new baseline
`(0,0)-(16,0)` and drops it.  All arithmetic involved is exact in
binary64, so the rational model computes the same values the source
does. -/
theorem simplify_not_idempotent :
    simplify (simplify [((0 : Rat), (0 : Rat)), (4, 4), (8, 8), (2, 0),
        (16, 0)] 64) 64
      ≠ simplify [((0 : Rat), (0 : Rat)), (4, 4), (8, 8), (2, 0),
        (16, 0)] 64 := by
  intro hEq
  have h1 : simplify [((0 : Rat), (0 : Rat)), (4, 4), (8, 8), (2, 0),
      (16, 0)] 64 = [((0 : Rat), (0 : Rat)), (2, 0), (16, 0)] := by
    with_unfolding_all rfl
  rw [h1] at hEq
  have h2 : simplify [((0 : Rat), (0 : Rat)), (2, 0), (16, 0)] 64
      = [((0 : Rat), (0 : Rat)), (16, 0)] := by
    with_unfolding_all rfl
  rw [h2] at hEq
  exact absurd (congrArg List.length hEq) (by simp)

/-! ### C8: out-of-range zoom returns an empty layer with zero I/O

`processSource` (`src/pipeline.ts`) checks the resolved zoom range before
anything else; every connector call (header read, range reads) happens in
the code after that check.  The remainder of the function is modelled as
an explicit continuation returning both its layer and the list of I/O
calls it performs, so the theorem holds for every possible remainder. -/

/-- `SourceOptions` / `TileOptions` from `src/source.ts`: every field
optional (`undefined` modelled as `none`). -/
structure SourceOptionsM where
  extent : Option Int
  buffer : Option Int
  tolerance : Option Int
  maxZoom : Option Int
  minZoom : Option Int

/-- `Required<TileOptions>`: all fields resolved. -/
structure RequiredTileOptions where
  extent : Int
  buffer : Int
  tolerance : Int
  maxZoom : Int
  minZoom : Int

/-- `DEFAULT_TILE_OPTIONS` from `src/source.ts`. -/
def DEFAULT_TILE_OPTIONS : RequiredTileOptions :=
  ⟨4096, 64, 3, 24, 0⟩

/-- One `a ?? b ?? d` cascade of `resolveOptions`. -/
def optCascade (a b : Option Int) (d : Int) : Int :=
  (a.orElse fun _ => b).getD d

/-- `resolveOptions` from `src/source.ts`: source override, then tile
default, then built-in default, per field. -/
def resolveOptions (source tile : Option SourceOptionsM) : RequiredTileOptions :=
  ⟨optCascade (source.bind SourceOptionsM.extent)
      (tile.bind SourceOptionsM.extent) DEFAULT_TILE_OPTIONS.extent,
    optCascade (source.bind SourceOptionsM.buffer)
      (tile.bind SourceOptionsM.buffer) DEFAULT_TILE_OPTIONS.buffer,
    optCascade (source.bind SourceOptionsM.tolerance)
      (tile.bind SourceOptionsM.tolerance) DEFAULT_TILE_OPTIONS.tolerance,
    optCascade (source.bind SourceOptionsM.maxZoom)
      (tile.bind SourceOptionsM.maxZoom) DEFAULT_TILE_OPTIONS.maxZoom,
    optCascade (source.bind SourceOptionsM.minZoom)
      (tile.bind SourceOptionsM.minZoom) DEFAULT_TILE_OPTIONS.minZoom⟩

/-- `MvtLayer` from `src/types.ts` at the granularity C8 needs: name,
extent, and the three lists (their element payloads are irrelevant to the
emptiness claim). -/
structure MvtLayerS where
  name : String
  extent : Int
  features : List Nat
  keys : List String
  values : List Nat

/-- `emptyLayer` from `src/pipeline.ts`. -/
def emptyLayer (name : String) (extent : Int) : MvtLayerS :=
  ⟨name, extent, [], [], []⟩

/-- `processSource` from `src/pipeline.ts`: the zoom-range check is the
first statement; the whole remainder (header read or cache, index query,
range reads, decode, layer build — everything that can touch the
connector) is the continuation `rest`, which reports the I/O calls it
makes as a list of records of type `io`. -/
def processSource {io : Type} (sourceName : String) (z : Int)
    (tileOpts : RequiredTileOptions)
    (rest : Unit → MvtLayerS × List io) : MvtLayerS × List io :=
  if z < tileOpts.minZoom ∨ tileOpts.maxZoom < z then
    (emptyLayer sourceName tileOpts.extent, [])
  else rest ()

/-- C8: whenever the requested zoom is strictly below the resolved
`minZoom` or strictly above the resolved `maxZoom`, `processSource`
returns the well-formed empty layer — name set to the source name, extent
to the resolved extent, and features, keys and values all empty — and the
list of connector calls is empty, for every possible remainder of the
pipeline. -/
theorem processSource_out_of_zoom_empty {io : Type} (sourceName : String)
    (z : Int) (src tile : Option SourceOptionsM)
    (rest : Unit → MvtLayerS × List io)
    (h : z < (resolveOptions src tile).minZoom ∨
      (resolveOptions src tile).maxZoom < z) :
    processSource sourceName z (resolveOptions src tile) rest
      = (⟨sourceName, (resolveOptions src tile).extent, [], [], []⟩,
        ([] : List io)) := by
  unfold processSource
  rw [if_pos h]
  rfl

/-- C8 (witness): at zoom 25 with no overrides the resolved `maxZoom` is
the default 24, so even a remainder that would perform a read and return
a non-empty layer is never run. -/
theorem processSource_out_of_zoom_empty_witness :
    ((25 : Int) < (resolveOptions none none).minZoom ∨
        (resolveOptions none none).maxZoom < 25) ∧
      processSource "roads" 25 (resolveOptions none none)
          (fun _ => (⟨"roads", 4096, [0], ["k"], [7]⟩, [((0 : Int), (9 : Int))]))
        = (⟨"roads", (resolveOptions none none).extent, [], [], []⟩,
          ([] : List (Int × Int))) :=
  ⟨Or.inr (by decide),
    processSource_out_of_zoom_empty "roads" 25 none none _
      (Or.inr (by decide))⟩

/-! ### C9: decoded features never carry an id, and the encoder omits field 1

The decoder side embeds `FlatBufferReader` (`src/fgb/flatbuffers.ts`) and
`decodeFeatures` / `decodeSingleFeature` / `decodeGeometry`
(`src/fgb/feature.ts`); the encoder side embeds `PbfWriter`
(`src/pbf/writer.ts`) at the byte level and `writeFeature`
(`src/pbf/encode.ts`). -/

/-- `FlatBufferReader` state: the underlying buffer (`bytes`), and the
view window `[vstart, vstart + vlen)` — the constructor's
`DataView(bytes.buffer, bytes.byteOffset + offset, byteLength - offset)`.
Scalar reads are bounded by the view; typed-array and byte-slice reads
address the underlying buffer. -/
structure FlatBufferReader where
  bytes : List Nat
  vstart : Nat
  vlen : Nat

/-- A `DataView.getUint*` scalar read of `width` bytes at a view-relative
offset: little-endian, throwing `RangeError` outside `[0, vlen)`. -/
def FlatBufferReader.scalar (fb : FlatBufferReader) (off : Int) (width : Nat) :
    Except String Nat :=
  if 0 ≤ off ∧ off.toNat + width ≤ fb.vlen then
    .ok (leVal ((fb.bytes.drop (fb.vstart + off.toNat)).take width))
  else .error "RangeError: view read out of bounds"

/-- `readUint8`. -/
def FlatBufferReader.readUint8 (fb : FlatBufferReader) (off : Int) :
    Except String Nat :=
  fb.scalar off 1

/-- `readUint16` (LE). -/
def FlatBufferReader.readUint16 (fb : FlatBufferReader) (off : Int) :
    Except String Nat :=
  fb.scalar off 2

/-- `readUint32` (LE). -/
def FlatBufferReader.readUint32 (fb : FlatBufferReader) (off : Int) :
    Except String Nat :=
  fb.scalar off 4

/-- `readInt32` (LE, two's complement). -/
def FlatBufferReader.readInt32 (fb : FlatBufferReader) (off : Int) :
    Except String Int :=
  (fb.scalar off 4).map (toSigned 32)

/-- `rootTableOffset`: the `uint32` at position 0. -/
def FlatBufferReader.rootTableOffset (fb : FlatBufferReader) :
    Except String Nat :=
  fb.readUint32 0

/-- `vtableOffset`: a table starts with a signed offset back to its
vtable. -/
def FlatBufferReader.vtableOffset (fb : FlatBufferReader) (tablePos : Int) :
    Except String Int :=
  (fb.readInt32 tablePos).map fun soffset => tablePos - soffset

/-- `fieldOffset`: look the field up in the vtable; `0` means the field
is absent. -/
def FlatBufferReader.fieldOffset (fb : FlatBufferReader) (tablePos : Int)
    (fieldIndex : Nat) : Except String Int :=
  match fb.vtableOffset tablePos with
  | .error e => .error e
  | .ok vtable =>
    match fb.readUint16 vtable with
    | .error e => .error e
    | .ok vtableSize =>
      let slotOffset := 4 + fieldIndex * 2
      if vtableSize ≤ slotOffset then .ok 0
      else
        match fb.readUint16 (vtable + slotOffset) with
        | .error e => .error e
        | .ok fieldOff =>
          if fieldOff = 0 then .ok 0 else .ok (tablePos + fieldOff)

/-- `indirect`: follow a `uint32` relative forward offset. -/
def FlatBufferReader.indirect (fb : FlatBufferReader) (pos : Int) :
    Except String Int :=
  (fb.readUint32 pos).map fun u => pos + u

/-- `vectorLen`: the `uint32` element count prefix. -/
def FlatBufferReader.vectorLen (fb : FlatBufferReader) (vectorOffset : Int) :
    Except String Nat :=
  fb.readUint32 vectorOffset

/-- `vectorStart`: element 0 sits right after the 4-byte length prefix. -/
def FlatBufferReader.vectorStart (_fb : FlatBufferReader) (vectorOffset : Int) :
    Int :=
  vectorOffset + 4

/-- `readFloat64Array`: `count` doubles, kept as raw 64-bit LE bit
patterns.  Both the aligned `Float64Array` view and the unaligned
`DataView` copy are bounded by the underlying buffer, so a single bounds
check captures both paths. -/
def FlatBufferReader.readFloat64Array (fb : FlatBufferReader) (off : Int)
    (count : Nat) : Except String (List Nat) :=
  let byteOffset : Int := (fb.vstart : Int) + off
  if 0 ≤ byteOffset ∧ byteOffset.toNat + 8 * count ≤ fb.bytes.length then
    .ok ((List.range count).map fun i =>
      leVal ((fb.bytes.drop (byteOffset.toNat + 8 * i)).take 8))
  else .error "RangeError: typed array out of bounds"

/-- `readUint32Array`: the aligned fast path is a `Uint32Array` view
bounded by the underlying buffer; the unaligned slow path reads each
element through the view (`readUint32`), so it is bounded by the view. -/
def FlatBufferReader.readUint32Array (fb : FlatBufferReader) (off : Int)
    (count : Nat) : Except String (List Nat) :=
  let byteOffset : Int := (fb.vstart : Int) + off
  if byteOffset % 4 = 0 then
    if 0 ≤ byteOffset ∧ byteOffset.toNat + 4 * count ≤ fb.bytes.length then
      .ok ((List.range count).map fun i =>
        leVal ((fb.bytes.drop (byteOffset.toNat + 4 * i)).take 4))
    else .error "RangeError: typed array out of bounds"
  else
    if count = 0 then .ok []
    else if 0 ≤ off ∧ off.toNat + 4 * count ≤ fb.vlen then
      .ok ((List.range count).map fun i =>
        leVal ((fb.bytes.drop (fb.vstart + off.toNat + 4 * i)).take 4))
    else .error "RangeError: view read out of bounds"

/-- `readBytes`: a `Uint8Array` slice of the underlying buffer. -/
def FlatBufferReader.readBytes (fb : FlatBufferReader) (off : Int)
    (len : Nat) : Except String (List Nat) :=
  let byteOffset : Int := (fb.vstart : Int) + off
  if 0 ≤ byteOffset ∧ byteOffset.toNat + len ≤ fb.bytes.length then
    .ok ((fb.bytes.drop byteOffset.toNat).take len)
  else .error "RangeError: byte slice out of bounds"

/-- Decoded FGB geometry (`DecodedGeometry` from `src/fgb/feature.ts`):
`xy` is a list of f64 bit patterns, `ends` and `parts` optional `uint32`
lists. -/
structure DecodedGeometry where
  type : Nat
  xy : List Nat
  ends : Option (List Nat)
  parts : Option (List Nat)
  deriving DecidableEq, Repr

/-- The `ends` read of `decodeGeometry` (field 0): `null` when the field
is missing or the vector is empty. -/
def readGeomEnds (fb : FlatBufferReader) (tablePos : Int) :
    Except String (Option (List Nat)) :=
  match fb.fieldOffset tablePos 0 with
  | .error e => .error e
  | .ok endsFieldOff =>
    if endsFieldOff ≠ 0 then
      match fb.indirect endsFieldOff with
      | .error e => .error e
      | .ok endsVecOffset =>
        match fb.vectorLen endsVecOffset with
        | .error e => .error e
        | .ok endsLen =>
          if 0 < endsLen then
            (fb.readUint32Array (fb.vectorStart endsVecOffset) endsLen).map some
          else .ok none
    else .ok none

/-- Accumulator of `decodeGeometry`'s parts loop: collected coordinate
arrays, globally shifted ring ends, polygon-part start indices, and the
running coordinate-pair count. -/
structure PartsAcc where
  allXy : List (List Nat)
  allEnds : List Nat
  partStarts : List Nat
  coordPairCount : Nat

/-- The `for (let i = 0; i < partsLen; i++)` loop of `decodeGeometry`'s
parts fallback, with the recursive call abstracted as `decode`: skip
parts that decode to `null` or have no coordinates, otherwise append the
part's coordinates and its ends shifted by the running pair count. -/
def partsLoop (fb : FlatBufferReader)
    (decode : Int → Except String (Option DecodedGeometry))
    (partsDataStart : Int) : List Nat → PartsAcc → Except String PartsAcc
  | [], acc => .ok acc
  | i :: is, acc =>
    match fb.indirect (partsDataStart + (i : Int) * 4) with
    | .error e => .error e
    | .ok partOffset =>
      match decode partOffset with
      | .error e => .error e
      | .ok none => partsLoop fb decode partsDataStart is acc
      | .ok (some g) =>
        if g.xy.length = 0 then partsLoop fb decode partsDataStart is acc
        else
          let partPairs := g.xy.length / 2
          let newEnds :=
            match g.ends with
            | some ends => ends.map (· + acc.coordPairCount)
            | none => [acc.coordPairCount + partPairs]
          partsLoop fb decode partsDataStart is
            ⟨acc.allXy ++ [g.xy], acc.allEnds ++ newEnds,
              acc.partStarts ++ [acc.allEnds.length],
              acc.coordPairCount + partPairs⟩

/-- The parts fallback of `decodeGeometry` (field 7), with the recursive
call abstracted as `decode`: flatten all parts into one `xy`, keep the
accumulated ends if non-empty, and record `parts` only for a
MultiPolygon (`GeomType` 6) with more than one part. -/
def decodeParts (fb : FlatBufferReader)
    (decode : Int → Except String (Option DecodedGeometry))
    (tablePos : Int) (ty : Nat) : Except String (Option DecodedGeometry) :=
  match fb.fieldOffset tablePos 7 with
  | .error e => .error e
  | .ok partsFieldOff =>
    if partsFieldOff = 0 then .ok none
    else
      match fb.indirect partsFieldOff with
      | .error e => .error e
      | .ok partsVecOffset =>
        match fb.vectorLen partsVecOffset with
        | .error e => .error e
        | .ok partsLen =>
          if partsLen = 0 then .ok none
          else
            match partsLoop fb decode (fb.vectorStart partsVecOffset)
                (List.range partsLen) ⟨[], [], [], 0⟩ with
            | .error e => .error e
            | .ok acc =>
              if acc.allXy.length = 0 then .ok none
              else
                .ok (some ⟨ty, acc.allXy.join,
                  if 0 < acc.allEnds.length then some acc.allEnds else none,
                  if ty = 6 ∧ 1 < acc.partStarts.length then
                    some acc.partStarts
                  else none⟩)

/-- `decodeGeometry` from `src/fgb/feature.ts`, structurally recursive on
remaining depth: the source guard `depth > MAX_GEOMETRY_DEPTH (= 4)`
returning `null` is fuel 0, and the top-level call at `depth = 0` is fuel
5.  Per-feature type (field 6) falls back to the header type; the flat
`xy` vector (field 1) is preferred, with the nested `parts` fallback when
it is absent or empty. -/
def decodeGeometryF (fb : FlatBufferReader) (hdrType : Nat) :
    Nat → Int → Except String (Option DecodedGeometry)
  | 0, _ => .ok none
  | fuel + 1, tablePos =>
    match fb.fieldOffset tablePos 6 with
    | .error e => .error e
    | .ok typeFieldOff =>
      match (if typeFieldOff ≠ 0 then fb.readUint8 typeFieldOff
        else .ok hdrType) with
      | .error e => .error e
      | .ok ty =>
        match fb.fieldOffset tablePos 1 with
        | .error e => .error e
        | .ok xyFieldOff =>
          if xyFieldOff ≠ 0 then
            match fb.indirect xyFieldOff with
            | .error e => .error e
            | .ok xyVecOffset =>
              match fb.vectorLen xyVecOffset with
              | .error e => .error e
              | .ok xyLen =>
                if 0 < xyLen then
                  match fb.readFloat64Array (fb.vectorStart xyVecOffset)
                      xyLen with
                  | .error e => .error e
                  | .ok xy =>
                    match readGeomEnds fb tablePos with
                    | .error e => .error e
                    | .ok ends => .ok (some ⟨ty, xy, ends, none⟩)
                else decodeParts fb (decodeGeometryF fb hdrType fuel)
                  tablePos ty
          else decodeParts fb (decodeGeometryF fb hdrType fuel) tablePos ty

/-- The FGB header fields feature decoding needs: the file-level geometry
type and the column schema. -/
structure FgbHeaderM where
  geometryType : Nat
  columns : List ColumnMeta

/-- `RawFeature` from `src/types.ts`: geometry data, the property
insertion list, and the (always-null) feature id. -/
structure RawFeatureM where
  type : Nat
  xy : List Nat
  ends : Option (List Nat)
  parts : Option (List Nat)
  properties : List (String × PropertyValue)
  id : Option Nat
  deriving DecidableEq, Repr

/-- The properties path of `decodeSingleFeature`: `decodeProperties`
over the FlatBuffer — vector length, whole-buffer byte slice, then the
shared property-stream loop. -/
def decodePropertiesFb (fb : FlatBufferReader) (propsVecOffset : Int)
    (columns : List ColumnMeta) :
    Except String (List (String × PropertyValue)) :=
  match fb.vectorLen propsVecOffset with
  | .error e => .error e
  | .ok propsLen =>
    if propsLen = 0 then .ok []
    else
      match fb.readBytes (fb.vectorStart propsVecOffset) propsLen with
      | .error e => .error e
      | .ok propsBytes => decodeProperties propsBytes columns

/-- `decodeSingleFeature` from `src/fgb/feature.ts`, over the chunk and
the feature's view window `[fstart, fstart + flen)`: `null` (here `none`)
when the geometry field is absent or the geometry decodes to `null`;
otherwise a `RawFeatureM` whose `id` is the literal `null` of the source
(`id: null`). -/
def decodeSingleFeature (chunk : List Nat) (fstart flen : Nat)
    (header : FgbHeaderM) : Except String (Option RawFeatureM) :=
  let fb : FlatBufferReader := ⟨chunk, fstart, flen⟩
  match fb.rootTableOffset with
  | .error e => .error e
  | .ok rootOffset =>
    match fb.fieldOffset rootOffset 0 with
    | .error e => .error e
    | .ok geomFieldOff =>
      if geomFieldOff = 0 then .ok none
      else
        match fb.indirect geomFieldOff with
        | .error e => .error e
        | .ok geomTableOffset =>
          match decodeGeometryF fb header.geometryType 5 geomTableOffset with
          | .error e => .error e
          | .ok none => .ok none
          | .ok (some geom) =>
            match fb.fieldOffset rootOffset 1 with
            | .error e => .error e
            | .ok propsFieldOff =>
              match (if propsFieldOff ≠ 0 then
                  match fb.indirect propsFieldOff with
                  | .error e =>
                    (.error e : Except String (List (String × PropertyValue)))
                  | .ok propsVecOffset =>
                    decodePropertiesFb fb propsVecOffset header.columns
                else .ok []) with
              | .error e => .error e
              | .ok properties =>
                .ok (some ⟨geom.type, geom.xy, geom.ends, geom.parts,
                  properties, none⟩)

/-- The `while` loop of `decodeFeatures`, fueled (each iteration advances
the offset by `featureSize + 4 ≥ 5`, so fuel `bytes.length + 1` always
suffices; see the fuel-irrelevance lemma): read the `uint32` size prefix,
stop on a short prefix, a zero size, or a truncated body, decode the
feature slice, and push non-null results.  `maxFeatures = none` is the
default `Infinity`. -/
def decodeFeaturesGo (bytes : List Nat) (header : FgbHeaderM)
    (maxFeatures : Option Nat) :
    Nat → Nat → Nat → Except String (List RawFeatureM)
  | 0, _, _ => .ok []
  | fuel + 1, offset, count =>
    if offset < bytes.length ∧ count < maxFeatures.getD (count + 1) then
      if bytes.length < offset + 4 then .ok []
      else
        let featureSize := leVal ((bytes.drop offset).take 4)
        if featureSize = 0 then .ok []
        else if bytes.length < offset + 4 + featureSize then .ok []
        else
          match decodeSingleFeature bytes (offset + 4) featureSize header with
          | .error e => .error e
          | .ok none =>
            decodeFeaturesGo bytes header maxFeatures fuel
              (offset + 4 + featureSize) count
          | .ok (some f) =>
            (decodeFeaturesGo bytes header maxFeatures fuel
              (offset + 4 + featureSize) (count + 1)).map (f :: ·)
    else .ok []

/-- `decodeFeatures` from `src/fgb/feature.ts`. -/
def decodeFeatures (bytes : List Nat) (header : FgbHeaderM)
    (maxFeatures : Option Nat) : Except String (List RawFeatureM) :=
  decodeFeaturesGo bytes header maxFeatures (bytes.length + 1) 0 0

/-- `PbfWriter` state at the byte level: `out` is the buffer content up
to `pos` (what `finish` would return), `lengthStack` the nested-message
placeholder positions.  Buffer capacity and `ensure`/`grow` are invisible
at this level. -/
structure PbfWriter where
  out : List Nat
  lengthStack : List Nat
  deriving DecidableEq, Repr

/-- `PbfWriter.writeVarint` on the non-negative path: append the byte
list produced by the shared `writeVarint` model. -/
def PbfWriter.putVarint (w : PbfWriter) (val : Nat) : PbfWriter :=
  ⟨w.out ++ writeVarint val, w.lengthStack⟩

/-- `PbfWriter.writeTag`: `(fieldNum << 3) | wireType` as a varint. -/
def PbfWriter.writeTag (w : PbfWriter) (fieldNum wireType : Nat) : PbfWriter :=
  w.putVarint (Nat.lor (fieldNum <<< 3) wireType)

/-- `PbfWriter.writeVarintField`: tag with wire type 0, then the value. -/
def PbfWriter.writeVarintField (w : PbfWriter) (fieldNum val : Nat) :
    PbfWriter :=
  (w.writeTag fieldNum 0).putVarint val

/-- `PbfWriter.writePackedVarint`: no-op on an empty list, otherwise tag
with wire type 2, the pre-computed total varint byte length, then every
value. -/
def PbfWriter.writePackedVarint (w : PbfWriter) (fieldNum : Nat)
    (values : List Nat) : PbfWriter :=
  if values.length = 0 then w
  else
    let byteLen := (values.map varintSize).sum
    values.foldl (fun acc v => acc.putVarint v)
      ((w.writeTag fieldNum 2).putVarint byteLen)

/-- `PbfWriter.beginMessage`: tag with wire type 2, push the current
position, reserve the 5-byte length placeholder (its content is dead —
`endMessage` always overwrites or drops it). -/
def PbfWriter.beginMessage (w : PbfWriter) (fieldNum : Nat) : PbfWriter :=
  let w1 := w.writeTag fieldNum 2
  ⟨w1.out ++ [0, 0, 0, 0, 0], w1.out.length :: w1.lengthStack⟩

/-- `PbfWriter.endMessage`: pop the placeholder position, patch the body
length as a varint there and shift the body over the unused placeholder
bytes.  The source's `copyWithin` plus in-place patch loop (the loop is
verbatim the non-negative `writeVarint` body, so for lengths below
`2^32` the written varint exactly fills the `varintSize` gap) is the
functional `take ++ varint ++ drop`.  Popping an empty stack is the
source's implicit failure and never occurs in balanced use. -/
def PbfWriter.endMessage (w : PbfWriter) : PbfWriter :=
  match w.lengthStack with
  | [] => w
  | p :: rest =>
    let messageLen := w.out.length - p - 5
    ⟨w.out.take p ++ writeVarint messageLen ++ w.out.drop (p + 5), rest⟩

/-- `MvtFeature` from `src/types.ts` as the encoder consumes it. -/
structure MvtFeatureM where
  id : Option Nat
  tags : List Nat
  type : Nat
  geometry : List Nat
  deriving DecidableEq, Repr

/-- `writeFeature` from `src/pbf/encode.ts`: nested message on field 2 of
the layer; the id (field 1) only when non-null, packed tags (field 2)
and geometry (field 4) only when non-empty, the type (field 3) always. -/
def writeFeature (w : PbfWriter) (feature : MvtFeatureM) : PbfWriter :=
  let w1 := w.beginMessage 2
  let w2 := match feature.id with
    | some v => w1.writeVarintField 1 v
    | none => w1
  let w3 := if 0 < feature.tags.length then w2.writePackedVarint 2 feature.tags
    else w2
  let w4 := w3.writeVarintField 3 feature.type
  let w5 := if 0 < feature.geometry.length then
      w4.writePackedVarint 4 feature.geometry
    else w4
  w5.endMessage

/-- The byte string a packed varint field contributes: nothing when
empty, else tag, total length, and the concatenated varints. -/
def packedVarintBytes (fieldNum : Nat) (values : List Nat) : List Nat :=
  if values.length = 0 then []
  else writeVarint (Nat.lor (fieldNum <<< 3) 2)
    ++ writeVarint ((values.map varintSize).sum)
    ++ (values.map writeVarint).join

/-- The body of one encoded `Tile.Feature` message: the optional field-1
id segment, then fields 2, 3 and 4. -/
def featureBodyBytes (feature : MvtFeatureM) : List Nat :=
  (match feature.id with
    | some v => writeVarint (Nat.lor (1 <<< 3) 0) ++ writeVarint v
    | none => []) ++
  packedVarintBytes 2 feature.tags ++
  (writeVarint (Nat.lor (3 <<< 3) 0) ++ writeVarint feature.type) ++
  packedVarintBytes 4 feature.geometry

/-- Folding `putVarint` over a list appends the concatenated varints and
leaves the stack alone. -/
theorem foldl_putVarint (values : List Nat) :
    ∀ w : PbfWriter,
      values.foldl (fun acc v => acc.putVarint v) w
        = ⟨w.out ++ (values.map writeVarint).join, w.lengthStack⟩ := by
  induction values with
  | nil => intro w; simp [List.foldl]
  | cons v vs ih =>
    intro w
    rw [List.foldl_cons, ih]
    simp [PbfWriter.putVarint]

/-- `writePackedVarint` appends exactly `packedVarintBytes`. -/
theorem writePackedVarint_bytes (w : PbfWriter) (fieldNum : Nat)
    (values : List Nat) :
    w.writePackedVarint fieldNum values
      = ⟨w.out ++ packedVarintBytes fieldNum values, w.lengthStack⟩ := by
  unfold PbfWriter.writePackedVarint packedVarintBytes
  by_cases h : values.length = 0
  · rw [if_pos h, if_pos h]
    simp
  · rw [if_neg h, if_neg h, foldl_putVarint]
    simp [PbfWriter.putVarint, PbfWriter.writeTag]

/-- A guarded packed write (`if (arr.length > 0) writePackedVarint(...)`)
appends exactly `packedVarintBytes`, which is empty for an empty list. -/
theorem packedStep (w : PbfWriter) (fieldNum : Nat) (values : List Nat) :
    (if 0 < values.length then w.writePackedVarint fieldNum values else w)
      = ⟨w.out ++ packedVarintBytes fieldNum values, w.lengthStack⟩ := by
  by_cases h : 0 < values.length
  · rw [if_pos h]
    exact writePackedVarint_bytes w fieldNum values
  · rw [if_neg h]
    have h0 : values.length = 0 := by omega
    simp [packedVarintBytes, h0]

/-- `endMessage` on a balanced writer: the placeholder is replaced by the
body-length varint, with the body shifted over the unused bytes. -/
theorem endMessage_spec (out1 pre body stack : List Nat) (p : Nat)
    (h : out1 = pre ++ ([0, 0, 0, 0, 0] ++ body)) (hp : p = pre.length) :
    PbfWriter.endMessage ⟨out1, p :: stack⟩
      = ⟨pre ++ (writeVarint body.length ++ body), stack⟩ := by
  subst h hp
  unfold PbfWriter.endMessage
  dsimp only
  have h1 : (pre ++ ([0, 0, 0, 0, 0] ++ body)).length - pre.length - 5
      = body.length := by
    simp
  have h2 : (pre ++ ([0, 0, 0, 0, 0] ++ body)).take pre.length = pre :=
    take_append_len pre.length pre _ rfl
  have h3 : (pre ++ ([0, 0, 0, 0, 0] ++ body)).drop (pre.length + 5)
      = body := by
    rw [← List.append_assoc]
    exact drop_append_len _ _ _ (by simp)
  rw [h1, h2, h3]
  simp

/-- `writeVarintField` appends the field tag and the value varint. -/
theorem writeVarintField_bytes (w : PbfWriter) (fieldNum val : Nat) :
    w.writeVarintField fieldNum val
      = ⟨(w.out ++ writeVarint (Nat.lor (fieldNum <<< 3) 0))
          ++ writeVarint val, w.lengthStack⟩ := rfl

/-- `beginMessage` appends the tag and the 5-byte placeholder and pushes
the placeholder position. -/
theorem beginMessage_bytes (w : PbfWriter) (fieldNum : Nat) :
    w.beginMessage fieldNum
      = ⟨(w.out ++ writeVarint (Nat.lor (fieldNum <<< 3) 2))
            ++ [0, 0, 0, 0, 0],
          (w.out ++ writeVarint (Nat.lor (fieldNum <<< 3) 2)).length
            :: w.lengthStack⟩ := rfl

/-- `writeFeature` emits exactly one nested message on field 2: the tag
`(2 << 3) | 2`, the body-length varint, and `featureBodyBytes`. -/
theorem writeFeature_bytes (w : PbfWriter) (feature : MvtFeatureM) :
    writeFeature w feature
      = ⟨w.out ++ (writeVarint (Nat.lor (2 <<< 3) 2)
          ++ (writeVarint (featureBodyBytes feature).length
            ++ featureBodyBytes feature)), w.lengthStack⟩ := by
  obtain ⟨fid, ftags, fty, fgeom⟩ := feature
  unfold writeFeature featureBodyBytes
  dsimp only
  cases fid with
  | none =>
    rw [beginMessage_bytes]
    rw [packedStep]
    dsimp only
    rw [writeVarintField_bytes]
    dsimp only
    rw [packedStep]
    dsimp only
    rw [endMessage_spec _
        (w.out ++ writeVarint (Nat.lor (2 <<< 3) 2))
        (packedVarintBytes 2 ftags
          ++ ((writeVarint (Nat.lor (3 <<< 3) 0) ++ writeVarint fty)
            ++ packedVarintBytes 4 fgeom))
        w.lengthStack _ (by simp) rfl]
    simp
  | some v =>
    rw [beginMessage_bytes]
    rw [writeVarintField_bytes]
    dsimp only
    rw [packedStep]
    dsimp only
    rw [writeVarintField_bytes]
    dsimp only
    rw [packedStep]
    dsimp only
    rw [endMessage_spec _
        (w.out ++ writeVarint (Nat.lor (2 <<< 3) 2))
        ((writeVarint (Nat.lor (1 <<< 3) 0) ++ writeVarint v)
          ++ (packedVarintBytes 2 ftags
            ++ ((writeVarint (Nat.lor (3 <<< 3) 0) ++ writeVarint fty)
              ++ packedVarintBytes 4 fgeom)))
        w.lengthStack _ (by simp) rfl]
    simp

/-- Any feature `decodeSingleFeature` returns carries the literal
`id: null` of its construction site. -/
theorem decodeSingleFeature_id_none (chunk : List Nat) (fstart flen : Nat)
    (header : FgbHeaderM) (f : RawFeatureM)
    (h : decodeSingleFeature chunk fstart flen header = .ok (some f)) :
    f.id = none := by
  unfold decodeSingleFeature at h
  dsimp only at h
  repeat' split at h
  all_goals first
    | exact Except.noConfusion h
    | exact Option.noConfusion (Except.ok.inj h)
    | (have h2 : _ = f := Option.some.inj (Except.ok.inj h); subst h2; rfl)

/-- Every feature the `decodeFeatures` loop accumulates comes out of
`decodeSingleFeature`, so its id is `none`. -/
theorem decodeFeaturesGo_id_none (bytes : List Nat) (header : FgbHeaderM)
    (maxFeatures : Option Nat) :
    ∀ (fuel offset count : Nat) (fs : List RawFeatureM) (f : RawFeatureM),
      decodeFeaturesGo bytes header maxFeatures fuel offset count = .ok fs →
      f ∈ fs → f.id = none := by
  intro fuel
  induction fuel with
  | zero =>
    intro offset count fs f h hf
    unfold decodeFeaturesGo at h
    cases h
    simp at hf
  | succ n ih =>
    intro offset count fs f h hf
    unfold decodeFeaturesGo at h
    dsimp only at h
    split at h
    · split at h
      · cases h; simp at hf
      · split at h
        · cases h; simp at hf
        · split at h
          · cases h; simp at hf
          · split at h
            · cases h
            · exact ih _ _ _ f h hf
            · rename_i g heq
              cases hrec : decodeFeaturesGo bytes header maxFeatures n
                  (offset + 4 + leVal ((bytes.drop offset).take 4))
                  (count + 1) with
              | error e => rw [hrec] at h; simp [Except.map] at h
              | ok fsRest =>
                rw [hrec] at h
                simp only [Except.map, Except.ok.injEq] at h
                subst h
                rcases List.mem_cons.mp hf with hfg | hmem
                · subst hfg
                  exact decodeSingleFeature_id_none bytes _ _ header f heq
                · exact ih _ _ _ f hrec hmem
    · cases h; simp at hf

/-- Any fuel beyond the remaining byte count gives the same result: each
iteration advances the offset by at least 5 bytes, so the fueled loop is
a faithful model of the source's `while`. -/
theorem decodeFeaturesGo_fuel_irrelevant (bytes : List Nat)
    (header : FgbHeaderM) (maxFeatures : Option Nat) :
    ∀ f1 f2 offset count, bytes.length - offset < f1 →
      bytes.length - offset < f2 →
      decodeFeaturesGo bytes header maxFeatures f1 offset count
        = decodeFeaturesGo bytes header maxFeatures f2 offset count := by
  intro f1
  induction f1 with
  | zero => intro f2 offset count h1 _; omega
  | succ n ih =>
    intro f2 offset count h1 h2
    cases f2 with
    | zero => omega
    | succ m =>
      unfold decodeFeaturesGo
      dsimp only
      split
      · rename_i hcond
        split
        · rfl
        · rename_i h4
          split
          · rfl
          · rename_i hsz
            split
            · rfl
            · rename_i hfit
              split
              · rfl
              · exact ih m _ count (by omega) (by omega)
              · rw [ih m _ (count + 1) (by omega) (by omega)]
      · rfl

/-- C9: decoded features never carry an id, and the encoder omits field 1
for an id-less feature.  First conjunct: whenever `decodeFeatures`
succeeds, every returned feature has `id = none` (`decodeSingleFeature`
constructs each record with the literal `id: null`).  Second conjunct:
`writeFeature` on a feature with `id = none` emits exactly the
feature-message tag `(2 << 3) | 2 = 18`, the body length, and a body
consisting only of the packed tags (field 2), the type field
(`(3 << 3) | 0 = 24`) and the packed geometry (field 4) — no field-1
segment. -/
theorem decodeFeatures_id_null_writeFeature_omits_field1 :
    (∀ (bytes : List Nat) (header : FgbHeaderM) (maxFeatures : Option Nat)
        (fs : List RawFeatureM) (f : RawFeatureM),
      decodeFeatures bytes header maxFeatures = .ok fs → f ∈ fs →
        f.id = none) ∧
    (∀ (w : PbfWriter) (feature : MvtFeatureM), feature.id = none →
      writeFeature w feature
        = ⟨w.out ++ (writeVarint 18
            ++ (writeVarint (packedVarintBytes 2 feature.tags
                ++ ((writeVarint 24 ++ writeVarint feature.type)
                  ++ packedVarintBytes 4 feature.geometry)).length
              ++ (packedVarintBytes 2 feature.tags
                ++ ((writeVarint 24 ++ writeVarint feature.type)
                  ++ packedVarintBytes 4 feature.geometry)))),
          w.lengthStack⟩) := by
  constructor
  · intro bytes header maxFeatures fs f h hf
    exact decodeFeaturesGo_id_none bytes header maxFeatures _ _ _ fs f h hf
  · intro w feature hid
    have h18 : Nat.lor (2 <<< 3) 2 = 18 := by decide
    have h24 : Nat.lor (3 <<< 3) 0 = 24 := by decide
    have hbody : featureBodyBytes feature
        = packedVarintBytes 2 feature.tags
            ++ ((writeVarint 24 ++ writeVarint feature.type)
              ++ packedVarintBytes 4 feature.geometry) := by
      unfold featureBodyBytes
      rw [hid, h24]
      simp
    rw [writeFeature_bytes, hbody, h18]

/-- C9 (witness): a handcrafted 60-byte buffer — a `uint32` size prefix
and one feature FlatBuffer whose root table has only a geometry field
with a 2-double `xy` vector — decodes to exactly one feature, whose id
the claim theorem then shows to be `none`; and the encoder conjunct is
applied to an id-less feature with non-trivial tags and geometry. -/
theorem decodeFeatures_id_null_witness :
    decodeFeatures
        [56, 0, 0, 0,
         12, 0, 0, 0,
         6, 0, 8, 0, 4, 0,
         0, 0,
         8, 0, 0, 0,
         12, 0, 0, 0,
         8, 0, 8, 0, 0, 0, 4, 0,
         8, 0, 0, 0,
         4, 0, 0, 0,
         2, 0, 0, 0,
         0, 0, 0, 0, 0, 0, 0, 0, 0, 0, 0, 0, 0, 0, 0, 0] ⟨3, []⟩ none
      = .ok [⟨3, [0, 0], none, none, [], none⟩] ∧
    (⟨3, [0, 0], none, none, [], none⟩ : RawFeatureM).id = none ∧
    writeFeature ⟨[], []⟩ ⟨none, [2, 0], 3, [9, 0, 0]⟩
      = ⟨[] ++ (writeVarint 18
          ++ (writeVarint (packedVarintBytes 2 [2, 0]
              ++ ((writeVarint 24 ++ writeVarint 3)
                ++ packedVarintBytes 4 [9, 0, 0])).length
            ++ (packedVarintBytes 2 [2, 0]
              ++ ((writeVarint 24 ++ writeVarint 3)
                ++ packedVarintBytes 4 [9, 0, 0])))), []⟩ := by
  have h1 : decodeFeatures
      [56, 0, 0, 0,
       12, 0, 0, 0,
       6, 0, 8, 0, 4, 0,
       0, 0,
       8, 0, 0, 0,
       12, 0, 0, 0,
       8, 0, 8, 0, 0, 0, 4, 0,
       8, 0, 0, 0,
       4, 0, 0, 0,
       2, 0, 0, 0,
       0, 0, 0, 0, 0, 0, 0, 0, 0, 0, 0, 0, 0, 0, 0, 0] ⟨3, []⟩ none
      = .ok [⟨3, [0, 0], none, none, [], none⟩] := by with_unfolding_all rfl
  refine ⟨h1, ?_, ?_⟩
  · exact decodeFeatures_id_null_writeFeature_omits_field1.1 _ ⟨3, []⟩
      none _ _ h1 (by simp)
  · exact decodeFeatures_id_null_writeFeature_omits_field1.2 ⟨[], []⟩
      ⟨none, [2, 0], 3, [9, 0, 0]⟩ rfl

end FgbVt
